import Mathlib

/-!
Verification of the `freebsd-radix-userland` routing-table stubs and the
XNU epoch / read-mostly-lock layer, as a shallow embedding in Lean.

Part 1: the list-backed radix stubs of `src/radix_stubs.c`.

A `sockaddr` is modelled as a byte buffer (`List Nat`), BSD layout:
byte 0 is `sa_len`, byte 1 is `sa_family`; for `sockaddr_in`, bytes 4..7
are the big-endian IPv4 address (`sin_addr`).  Buffers copied into a
zeroed `sockaddr_storage` are modelled by truncating at `sa_len`; reads
past the end of a stored buffer see the zero padding, which `byteAt`
reproduces with its default value.
-/

set_option genInjectivity false

set_option genSizeOfSpec false

abbrev Bytes := List Nat

/-- `sa_len`: first byte of a sockaddr buffer. -/
def saLen (sa : Bytes) : Nat := sa.headD 0

/-- `sa_family`: second byte of a sockaddr buffer. -/
def saFamily (sa : Bytes) : Nat := sa.getD 1 0

/-- Read byte `i` of a (conceptually zero-padded) buffer. -/
def byteAt (b : Bytes) (i : Nat) : Nat := b.getD i 0

/-- The first `n` bytes of a zero-padded buffer. -/
def takeBytes (b : Bytes) (n : Nat) : Bytes := (List.range n).map (fun i => byteAt b i)

/-- `memcmp(a, b, n) == 0` over zero-padded buffers. -/
def memcmpEq (a b : Bytes) (n : Nat) : Bool := takeBytes a n == takeBytes b n

/-- The bytes that `memcpy(&storage, sa, sa->sa_len)` deposits in a zeroed
`sockaddr_storage`: the first `sa_len` bytes of `sa`. -/
def storeBytes (sa : Bytes) : Bytes := takeBytes sa (saLen sa)

/-- `ntohl(sin_addr)`: big-endian 32-bit word at bytes 4..7 of a
`sockaddr_in` buffer. -/
def beWord (b : Bytes) : Nat :=
  byteAt b 4 * 2 ^ 24 + byteAt b 5 * 2 ^ 16 + byteAt b 6 * 2 ^ 8 + byteAt b 7

def AF_INET : Nat := 2

/-- `struct radix_stub_entry`: one stored route.  `dst` holds the bytes
copied from the destination sockaddr; `mask` holds the bytes copied from
the mask sockaddr, `[]` when the insert passed a NULL mask (the storage
stays zeroed). -/
structure RadixStubEntry where
  dst : Bytes
  mask : Bytes
  deriving DecidableEq

/-- `struct radix_stub_head`: the entry list plus the `count` field. -/
structure RadixStubHead where
  entries : List RadixStubEntry
  count : Int
  deriving DecidableEq

/-- `rn_inithead`: fresh head with no entries and `count = 0`. -/
def rn_inithead : RadixStubHead := { entries := [], count := 0 }

/-- The entry built by `stub_addaddr` from a destination and an optional
mask. -/
def mkStubEntry (d : Bytes) (m : Option Bytes) : RadixStubEntry :=
  { dst := storeBytes d
    mask := match m with
      | some mm => storeBytes mm
      | none => [] }

/-- `stub_addaddr`: prepend a new entry, bump `count`; fails (NULL) only
when the destination pointer is NULL. -/
def stub_addaddr (v : Option Bytes) (mask : Option Bytes) (rh : RadixStubHead) :
    Option RadixStubEntry × RadixStubHead :=
  match v with
  | none => (none, rh)
  | some d =>
      let e := mkStubEntry d mask
      (some e, { entries := e :: rh.entries, count := rh.count + 1 })

/-- `entry_mask->sa_len` as read from the stored mask buffer. -/
def entryMaskLen (e : RadixStubEntry) : Nat := byteAt e.mask 0

/-- The `dst_match` test of `stub_deladdr` / `stub_lookup`:
`memcmp(dst, lookup_dst, lookup_dst->sa_len) == 0`. -/
def dstMatch (e : RadixStubEntry) (d : Bytes) : Bool :=
  memcmpEq e.dst d (saLen d)

/-- The `mask_match` test of `stub_deladdr` / `stub_lookup`. -/
def maskMatch (e : RadixStubEntry) (m : Option Bytes) : Bool :=
  match m with
  | some mm => if 0 < entryMaskLen e then memcmpEq e.mask mm (saLen mm) else false
  | none => decide (entryMaskLen e = 0)

/-- Combined exact-match test used by both delete and lookup. -/
def exactMatch (e : RadixStubEntry) (d : Bytes) (m : Option Bytes) : Bool :=
  dstMatch e d && maskMatch e m

/-- Remove the first list element satisfying `p`, returning it. -/
def removeFirst (p : RadixStubEntry → Bool) :
    List RadixStubEntry → Option RadixStubEntry × List RadixStubEntry
  | [] => (none, [])
  | e :: rest =>
      if p e then (some e, rest)
      else
        let r := removeFirst p rest
        (r.1, e :: r.2)

/-- `stub_deladdr`: unlink the first exactly-matching entry and decrement
`count`; return NULL when the key is NULL or nothing matches. -/
def stub_deladdr (v : Option Bytes) (mask : Option Bytes) (rh : RadixStubHead) :
    Option RadixStubEntry × RadixStubHead :=
  match v with
  | none => (none, rh)
  | some d =>
      match removeFirst (fun e => exactMatch e d mask) rh.entries with
      | (none, _) => (none, rh)
      | (some e, rest) => (some e, { entries := rest, count := rh.count - 1 })

/-- `stub_lookup`: first exactly-matching entry, no mutation. -/
def stub_lookup (v : Option Bytes) (mask : Option Bytes) (rh : RadixStubHead) :
    Option RadixStubEntry :=
  match v with
  | none => none
  | some d => rh.entries.find? (fun e => exactMatch e d mask)

/-- `addr_matches(addr, dst, mask)`: family check, then masked IPv4
containment.  `mask` is an optional pointer; a NULL pointer means a full
0xFFFFFFFF mask (dead branch at the only call site, kept faithful). -/
def addr_matches (addr dst : Bytes) (mask : Option Bytes) : Bool :=
  if saFamily addr ≠ saFamily dst then false
  else if saFamily addr = AF_INET then
    let maskIp := match mask with
      | some m => beWord m
      | none => 0xFFFFFFFF
    decide (beWord addr &&& maskIp = beWord dst &&& maskIp)
  else false

/-- Loop body of `stub_matchaddr`: scan entries keeping the best match and
its numeric mask value. -/
def matchScan (lookup : Bytes) :
    List RadixStubEntry → Option RadixStubEntry → Nat → Option RadixStubEntry
  | [], best, _ => best
  | e :: rest, best, bestMask =>
      if addr_matches lookup e.dst (some e.mask) then
        if saFamily e.mask = AF_INET then
          let mip := beWord e.mask
          if bestMask ≤ mip then matchScan lookup rest (some e) mip
          else matchScan lookup rest best bestMask
        else
          match best with
          | none => matchScan lookup rest (some e) bestMask
          | some b => matchScan lookup rest (some b) bestMask
      else matchScan lookup rest best bestMask

/-- `stub_matchaddr`: linear best-match search. -/
def stub_matchaddr (v : Option Bytes) (rh : RadixStubHead) : Option RadixStubEntry :=
  match v with
  | none => none
  | some lookup => matchScan lookup rh.entries none 0

/-- Loop of `stub_walktree` with a state-passing visitor: visit entries in
list order while the visitor keeps returning 0. -/
def walkLoop {σ : Type} (f : RadixStubEntry → σ → Int × σ) :
    List RadixStubEntry → σ → Int → Int × σ
  | [], w, res => (res, w)
  | e :: rest, w, res =>
      if res = 0 then
        let r := f e w
        walkLoop f rest r.2 r.1
      else (res, w)

/-- `stub_walktree`: run the visitor over the entry list, stopping at the
first non-zero return. -/
def stub_walktree {σ : Type} (f : RadixStubEntry → σ → Int × σ)
    (rh : RadixStubHead) (w : σ) : Int × σ :=
  walkLoop f rh.entries w 0

/-- The sequence of entries `stub_walktree` hands to a visitor whose
return codes are given by `v`, obtained by instrumenting the visitor
state with a log. -/
def walkVisited (v : RadixStubEntry → Int) (rh : RadixStubHead) : List RadixStubEntry :=
  (stub_walktree (fun e s => (v e, s ++ [e])) rh []).2

/-- Operations of the stub table, for reachable-state reasoning. -/
inductive StubOp where
  | add (v : Option Bytes) (mask : Option Bytes)
  | del (v : Option Bytes) (mask : Option Bytes)

def applyStubOp (rh : RadixStubHead) : StubOp → RadixStubHead
  | .add v m => (stub_addaddr v m rh).2
  | .del v m => (stub_deladdr v m rh).2

def runStubOps (ops : List StubOp) : RadixStubHead :=
  ops.foldl applyStubOp rn_inithead

/-!
Part 2: the XNU epoch reclaimer and advanced rmlock of
`src/xnu_kernel/xnu_freebsd_radix.c` / `xnu_rmlock_advanced.c`, and the
userland `NET_EPOCH_*` shims of `src/kernel_compat/compat_shim.h`.

Machine integers are modelled as `Nat` with explicit reduction modulo
`2 ^ 32` where 32-bit overflow can occur; spin loops that only read state
and delay (the grace-period wait, the writer wait loop) are modelled by
their state effect, with blocking on other threads surfaced as `Option`.
-/

def UINT32_MAX : Nat := 2 ^ 32 - 1

/-- Grace-period states (`GP_STATE_*`). -/
inductive GpState where
  | idle
  | started
  | waiting
  | completed
  deriving DecidableEq

/-- `struct xnu_grace_period` (timing fields omitted: never branched on). -/
structure GracePeriod where
  gpNumber : Nat
  gpState : GpState
  cpuMask : Nat
  completedMask : Nat

/-- `struct xnu_epoch_cpu_state` (the fields the grace-period logic reads
and writes). -/
structure EpochCpuState where
  activeReaders : Nat
  lastGracePeriod : Nat
  gracePeriods : Nat
  inGracePeriod : Bool

/-- `struct epoch_callback_entry`: the callback function is abstracted to
an id; `urgent` is the `EPOCH_CB_FLAG_URGENT` bit. -/
structure EpochCallbackEntry where
  cbId : Nat
  urgent : Bool
  memorySize : Nat
  deriving DecidableEq

/-- `struct xnu_epoch_memory`. -/
structure XnuEpochMemory where
  callbackCount : Nat
  callbackLimit : Nat
  memoryPressure : Nat
  emergencyReclaim : Nat
  bytesReclaimed : Nat

/-- `struct xnu_epoch` (the grace-period and memory-pressure slice). -/
structure XnuEpoch where
  gp : GracePeriod
  cpuStates : List EpochCpuState
  callbackQueue : List EpochCallbackEntry
  gracePeriodsCompleted : Nat
  memory : XnuEpochMemory
  emergencyReclaims : Nat

/-- The CPU-scan loop of `xnu_epoch_start_grace_period`: starting at CPU
index `i`, return `(cpu_mask, completed_mask, active_cpus)`. -/
def buildGpMasks : Nat → List EpochCpuState → Nat × Nat × Nat
  | _, [] => (0, 0, 0)
  | i, c :: rest =>
      let r := buildGpMasks (i + 1) rest
      if 0 < c.activeReaders then (r.1 ||| (1 <<< i) % 2 ^ 32, r.2.1, r.2.2 + 1)
      else (r.1, r.2.1 ||| (1 <<< i) % 2 ^ 32, r.2.2)

/-- `xnu_epoch_start_grace_period`: bump `gp_number`, mark the state
STARTED, build the CPU masks, then move to COMPLETED (no active CPUs) or
WAITING. -/
def xnu_epoch_start_grace_period (e : XnuEpoch) : XnuEpoch :=
  let gp1 : GracePeriod :=
    { gpNumber := e.gp.gpNumber + 1, gpState := .started, cpuMask := 0, completedMask := 0 }
  let r := buildGpMasks 0 e.cpuStates
  let finalState := if r.2.2 = 0 then GpState.completed else GpState.waiting
  { e with
    gp := { gp1 with cpuMask := r.1, completedMask := r.2.1, gpState := finalState }
    gracePeriodsCompleted := e.gracePeriodsCompleted + 1 }

/-- The CPU-scan loop of `xnu_epoch_check_grace_period`: for CPUs in
`remaining`, collect newly completed bits and bump their
`grace_periods`. -/
def checkGpCpus (gpNumber remaining : Nat) : Nat → List EpochCpuState → Nat × List EpochCpuState
  | _, [] => (0, [])
  | i, c :: rest =>
      let r := checkGpCpus gpNumber remaining (i + 1) rest
      if remaining.testBit i then
        if c.activeReaders = 0 ∨ gpNumber ≤ c.lastGracePeriod then
          (r.1 ||| (1 <<< i) % 2 ^ 32, { c with gracePeriods := c.gracePeriods + 1 } :: r.2)
        else (r.1, c :: r.2)
      else (r.1, c :: r.2)

/-- `xnu_epoch_check_grace_period`: false unless WAITING; otherwise update
`completed_mask` from the per-CPU states and report whether every CPU in
`cpu_mask` has completed. -/
def xnu_epoch_check_grace_period (e : XnuEpoch) : Bool × XnuEpoch :=
  if e.gp.gpState ≠ GpState.waiting then (false, e)
  else
    let remaining := e.gp.cpuMask &&& (UINT32_MAX ^^^ e.gp.completedMask)
    let r := checkGpCpus e.gp.gpNumber remaining 0 e.cpuStates
    let newCompleted := e.gp.completedMask ||| r.1
    let e2 := { e with gp := { e.gp with completedMask := newCompleted }, cpuStates := r.2 }
    (decide (e2.gp.cpuMask &&& (UINT32_MAX ^^^ newCompleted) = 0), e2)

/-- `xnu_epoch_complete_grace_period`: state COMPLETED, every CPU records
the finished grace-period number. -/
def xnu_epoch_complete_grace_period (e : XnuEpoch) : XnuEpoch :=
  { e with
    gp := { e.gp with gpState := .completed }
    cpuStates := e.cpuStates.map
      (fun c => { c with lastGracePeriod := e.gp.gpNumber, inGracePeriod := false }) }

/-- One invocation of `xnu_epoch_grace_period_worker` (the trailing
re-arm of the thread call is an external side effect with no state here;
on COMPLETED the reclaim thread call is triggered likewise). -/
def xnu_epoch_grace_period_worker (e : XnuEpoch) : XnuEpoch :=
  match e.gp.gpState with
  | .idle => if e.callbackQueue ≠ [] then xnu_epoch_start_grace_period e else e
  | .started =>
      let r := xnu_epoch_check_grace_period e
      if r.1 then xnu_epoch_complete_grace_period r.2 else r.2
  | .waiting =>
      let r := xnu_epoch_check_grace_period e
      if r.1 then xnu_epoch_complete_grace_period r.2 else r.2
  | .completed => { e with gp := { e.gp with gpState := .idle } }

/-- Position of a state on the documented cycle
IDLE → STARTED → WAITING → COMPLETED → IDLE. -/
def gpIdx : GpState → Nat
  | .idle => 0
  | .started => 1
  | .waiting => 2
  | .completed => 3

/-- One step moves forward along the cycle (possibly staying put, possibly
covering several cycle edges at once), wrapping only at
COMPLETED → IDLE. -/
def GpCycleStep (s t : GpState) : Prop :=
  s = t ∨ gpIdx s < gpIdx t ∨ (s = .completed ∧ t = .idle)

/-- The `uint32_t` decrement `callback_count--`. -/
def dec32 (n : Nat) : Nat := (n + UINT32_MAX) % 2 ^ 32

/-- The bookkeeping done for one emergency-processed callback:
`callback_count--`, `bytes_reclaimed += size`, `emergency_reclaim++`. -/
def emergencyAccount (m : XnuEpochMemory) (c : EpochCallbackEntry) : XnuEpochMemory :=
  { m with
    callbackCount := dec32 m.callbackCount
    bytesReclaimed := (m.bytesReclaimed + c.memorySize) % 2 ^ 64
    emergencyReclaim := (m.emergencyReclaim + 1) % 2 ^ 32 }

/-- `xnu_epoch_emergency_reclaim`: move the URGENT-flagged callbacks (in
queue order) to a private queue, execute them synchronously (the executed
entries are returned in execution order), and account for each. -/
def xnu_epoch_emergency_reclaim (e : XnuEpoch) : XnuEpoch × List EpochCallbackEntry :=
  let urgentq := e.callbackQueue.filter (fun c => c.urgent)
  let rest := e.callbackQueue.filter (fun c => !c.urgent)
  let mem := urgentq.foldl emergencyAccount e.memory
  ({ e with
      callbackQueue := rest
      memory := mem
      emergencyReclaims := e.emergencyReclaims + 1 }, urgentq)

/-- The critical-pressure threshold of `xnu_epoch_check_memory_pressure`:
`callback_limit * 9 / 10` in `uint32_t` arithmetic. -/
def highWaterMark (m : XnuEpochMemory) : Nat := m.callbackLimit * 9 % 2 ^ 32 / 10

/-- `xnu_epoch_check_memory_pressure`: reclassify the pressure level from
the callback count, and run the emergency reclaim exactly when the count
exceeds the critical (>90% of limit) threshold. -/
def xnu_epoch_check_memory_pressure (e : XnuEpoch) : XnuEpoch × List EpochCallbackEntry :=
  let cc := e.memory.callbackCount
  let newPressure : Nat :=
    if highWaterMark e.memory < cc then 3
    else if cc > e.memory.callbackLimit * 7 % 2 ^ 32 / 10 then 2
    else if cc > e.memory.callbackLimit / 2 then 1
    else 0
  let e2 := { e with memory := { e.memory with memoryPressure := newPressure } }
  if highWaterMark e.memory < cc then xnu_epoch_emergency_reclaim e2 else (e2, [])

/-- `struct xnu_writer_waiter` (thread and priority). -/
structure XnuWriterWaiter where
  thread : Nat
  priority : Nat
  deriving DecidableEq

/-- The reader-side epoch slice `xnu_epoch_wait_preempt` interacts with. -/
structure XnuRmEpoch where
  activeReaders : Nat
  epochNumber : Nat

/-- `struct xnu_rmlock` (the writer-protocol slice). -/
structure XnuRmlock where
  currentWriter : Option Nat
  rwExclusive : Bool
  writerWaitQueue : List XnuWriterWaiter
  waitingWriters : Nat
  writerPriority : Bool
  fastPathEnabled : Nat
  currentReaders : Nat
  readEpoch : XnuRmEpoch
  statWriteLocks : Nat

/-- `xnu_epoch_wait_preempt`: spin (reads and delays only) until the
active readers drain or the wait times out, then advance the epoch
number.  The state effect is the epoch advance. -/
def xnu_epoch_wait_preempt (ep : XnuRmEpoch) : XnuRmEpoch :=
  { ep with epochNumber := ep.epochNumber + 1 }

/-- `xnu_rm_wakeup_writers`: wake the thread at the head of the writer
wait queue, if any; no lock state is modified. -/
def xnu_rm_wakeup_writers (rm : XnuRmlock) : Option Nat :=
  match rm.writerWaitQueue with
  | [] => none
  | w :: _ => some w.thread

/-- `xnu_rm_wunlock`: clear `current_writer`, drop the exclusive lock,
then wake the head of the writer queue.  Returns the new state and the
thread woken (if any). -/
def xnu_rm_wunlock (rm : XnuRmlock) : XnuRmlock × Option Nat :=
  let rm1 := { rm with currentWriter := none }
  let rm2 := { rm1 with rwExclusive := false }
  (rm2, xnu_rm_wakeup_writers rm2)

/-- The priority-ordered insertion of `xnu_rm_enqueue_writer`: insert
before the first queued waiter of strictly lower priority. -/
def insertByPriority (w : XnuWriterWaiter) : List XnuWriterWaiter → List XnuWriterWaiter
  | [] => [w]
  | x :: rest => if x.priority < w.priority then w :: x :: rest else x :: insertByPriority w rest

/-- `xnu_rm_enqueue_writer`. -/
def xnu_rm_enqueue_writer (rm : XnuRmlock) (w : XnuWriterWaiter) : XnuRmlock :=
  { rm with
    writerWaitQueue := insertByPriority w rm.writerWaitQueue
    waitingWriters := rm.waitingWriters + 1 }

/-- The removal half of `xnu_rm_dequeue_writer`: if the queue is
non-empty, unlink the waiter and decrement `waiting_writers`. -/
def xnu_rm_dequeue_remove (rm : XnuRmlock) (w : XnuWriterWaiter) : XnuRmlock :=
  if rm.writerWaitQueue ≠ [] then
    { rm with
      writerWaitQueue := rm.writerWaitQueue.erase w
      waitingWriters := rm.waitingWriters - 1 }
  else rm

/-- `xnu_rm_dequeue_writer`: remove the waiter, and when no writers
remain waiting restore the reader fast path
(`writer_priority = false`, `fast_path_enabled = 1`). -/
def xnu_rm_dequeue_writer (rm : XnuRmlock) (w : XnuWriterWaiter) : XnuRmlock :=
  let rm1 := xnu_rm_dequeue_remove rm w
  if rm1.waitingWriters = 0 then
    { rm1 with writerPriority := false, fastPathEnabled := 1 }
  else rm1

/-- `{ rm with rwExclusive := true }`: `lck_rw_lock_exclusive`. -/
def acquireExclusive (rm : XnuRmlock) : XnuRmlock := { rm with rwExclusive := true }

/-- Apply the epoch reclaimer's grace-period wait to the lock state. -/
def applyEpochWait (rm : XnuRmlock) : XnuRmlock :=
  { rm with readEpoch := xnu_epoch_wait_preempt rm.readEpoch }

/-- Record the winning writer and bump `stat_write_locks`. -/
def setCurrentWriter (tid : Nat) (rm : XnuRmlock) : XnuRmlock :=
  { rm with currentWriter := some tid, statWriteLocks := rm.statWriteLocks + 1 }

/-- The tail of `xnu_rm_wlock_advanced` after the writer-queue phase:
block on the exclusive lock, drain epoch readers, record the writer. -/
def xnu_rm_wlock_final (rm : XnuRmlock) (tid : Nat) : XnuRmlock :=
  setCurrentWriter tid (applyEpochWait (acquireExclusive rm))

/-- `xnu_rm_wlock_advanced`: the queue phase enqueues when fair mode is on
or writers are already waiting, and spins while other writers are ahead
or tracked readers are active; `none` models blocking in that loop on
other threads.  When the loop guard is clear the waiter dequeues itself
and falls through to the lock/epoch-wait tail. -/
def xnu_rm_wlock_advanced (rm : XnuRmlock) (fairMode : Bool) (tid prio : Nat) :
    Option XnuRmlock :=
  if fairMode ∨ 0 < rm.waitingWriters then
    let w : XnuWriterWaiter := { thread := tid, priority := prio }
    let rm1 := xnu_rm_enqueue_writer rm w
    if 1 < rm1.waitingWriters ∨ 0 < rm1.currentReaders then none
    else some (xnu_rm_wlock_final (xnu_rm_dequeue_writer rm1 w) tid)
  else some (xnu_rm_wlock_final rm tid)

/-- `NET_EPOCH_ENTER(et)`: `do { (void)(et); } while(0)`. -/
def NET_EPOCH_ENTER {σ : Type u} (s : σ) : σ := s

/-- `NET_EPOCH_EXIT(et)`: `do { (void)(et); } while(0)`. -/
def NET_EPOCH_EXIT {σ : Type u} (s : σ) : σ := s

/-- `NET_EPOCH_WAIT()`: `do { } while(0)`. -/
def NET_EPOCH_WAIT {σ : Type u} (s : σ) : σ := s

/-- `NET_EPOCH_CALL(func, arg)`: `func(arg)` at the call site. -/
def NET_EPOCH_CALL {σ : Type u} (func : σ → σ) (s : σ) : σ := func s

/-- A sequence of userland epoch-shim invocations over a world state. -/
inductive NetEpochOp (σ : Type u) where
  | enter
  | leave
  | wait
  | call (func : σ → σ)

/-- Interpret a sequence of shim invocations with the `compat_shim.h`
macro definitions. -/
def runNetEpochOps {σ : Type u} : List (NetEpochOp σ) → σ → σ
  | [], s => s
  | .enter :: ops, s => runNetEpochOps ops (NET_EPOCH_ENTER s)
  | .leave :: ops, s => runNetEpochOps ops (NET_EPOCH_EXIT s)
  | .wait :: ops, s => runNetEpochOps ops (NET_EPOCH_WAIT s)
  | .call f :: ops, s => runNetEpochOps ops (NET_EPOCH_CALL f s)

/-- The reclamation callbacks scheduled in a sequence of invocations. -/
def scheduledCallbacks {σ : Type u} : List (NetEpochOp σ) → List (σ → σ)
  | [] => []
  | .call f :: ops => f :: scheduledCallbacks ops
  | _ :: ops => scheduledCallbacks ops

/-!
Part 3: lemmas about the byte-buffer model and the exact-match predicate.
-/

/-- The stored mask buffer produced by `stub_addaddr` for a given optional
mask argument. -/
def storedMask : Option Bytes → Bytes
  | some mm => storeBytes mm
  | none => []

theorem mkStubEntry_dst (d : Bytes) (m : Option Bytes) :
    (mkStubEntry d m).dst = storeBytes d := rfl

theorem mkStubEntry_mask (d : Bytes) (m : Option Bytes) :
    (mkStubEntry d m).mask = storedMask m := by
  cases m <;> rfl

theorem byteAt_zero (sa : Bytes) : byteAt sa 0 = saLen sa := by
  cases sa <;> simp [byteAt, saLen]

theorem length_takeBytes (b : Bytes) (n : Nat) : (takeBytes b n).length = n := by
  simp [takeBytes]

theorem byteAt_takeBytes (b : Bytes) (n i : Nat) :
    byteAt (takeBytes b n) i = if i < n then byteAt b i else 0 := by
  by_cases h : i < n
  · simp [takeBytes, byteAt, List.getD_eq_getElem?_getD, List.getElem?_map,
      List.getElem?_range, h]
  · have hlen : (takeBytes b n).length ≤ i := by
      rw [length_takeBytes]; omega
    simp [byteAt, List.getD_eq_getElem?_getD, List.getElem?_eq_none hlen, h]

theorem takeBytes_takeBytes (b : Bytes) (n m : Nat) (h : m ≤ n) :
    takeBytes (takeBytes b n) m = takeBytes b m := by
  refine List.map_congr_left ?_
  intro i hi
  rw [List.mem_range] at hi
  rw [byteAt_takeBytes]
  simp [Nat.lt_of_lt_of_le hi h]

theorem memcmpEq_true_iff (a b : Bytes) (n : Nat) :
    memcmpEq a b n = true ↔ takeBytes a n = takeBytes b n := by
  simp [memcmpEq]

theorem saLen_storeBytes (sa : Bytes) (h : 1 ≤ saLen sa) :
    byteAt (storeBytes sa) 0 = saLen sa := by
  rw [storeBytes, byteAt_takeBytes, if_pos (show 0 < saLen sa by omega), byteAt_zero]

/-- The core exact-match fact: comparing a stored buffer against a raw
sockaddr over the sockaddr's `sa_len` bytes is equality of stored forms,
provided both `sa_len` fields are non-zero. -/
theorem memcmpEq_storeBytes (d2 d : Bytes) (h2 : 1 ≤ saLen d2) (h : 1 ≤ saLen d) :
    (memcmpEq (storeBytes d2) d (saLen d) = true) ↔ storeBytes d = storeBytes d2 := by
  have hpos : 0 < saLen d := by omega
  rw [memcmpEq_true_iff]
  constructor
  · intro hEq
    have hb0 : byteAt (takeBytes (storeBytes d2) (saLen d)) 0
        = byteAt (takeBytes d (saLen d)) 0 := by rw [hEq]
    rw [byteAt_takeBytes, byteAt_takeBytes, if_pos hpos, if_pos hpos,
      saLen_storeBytes d2 h2, byteAt_zero] at hb0
    -- hb0 : saLen d2 = saLen d
    have hTT : takeBytes (storeBytes d2) (saLen d) = storeBytes d2 := by
      show takeBytes (takeBytes d2 (saLen d2)) (saLen d) = takeBytes d2 (saLen d2)
      rw [takeBytes_takeBytes d2 (saLen d2) (saLen d) (le_of_eq hb0.symm), ← hb0]
    rw [hTT] at hEq
    exact hEq.symm
  · intro hS
    have hlen : saLen d = saLen d2 := by
      have hl := congrArg List.length hS
      simpa [storeBytes, length_takeBytes] using hl
    simp only [storeBytes] at hS ⊢
    rw [takeBytes_takeBytes d2 (saLen d2) (saLen d) (le_of_eq hlen), hlen]
    rw [hlen] at hS
    exact hS.symm

/-- A sockaddr buffer is well formed when its `sa_len` is non-zero, lies
within the buffer (every byte `memcpy`/`memcmp` touches exists), and fits
in a `sockaddr_storage` (128 bytes). -/
def wfSa (sa : Bytes) : Prop := 1 ≤ saLen sa ∧ saLen sa ≤ sa.length ∧ saLen sa ≤ 128

/-- A mask argument is well formed when absent (NULL) or well formed. -/
def wfMask : Option Bytes → Prop
  | none => True
  | some m => wfSa m

/-- A (key, mask) argument pair is well formed. -/
def wfPair (p : Bytes × Option Bytes) : Prop := wfSa p.1 ∧ wfMask p.2

/-- Every entry of the table was stored by an insert of a well-formed
pair. -/
def wfTable (rh : RadixStubHead) : Prop :=
  ∀ e ∈ rh.entries, ∃ p : Bytes × Option Bytes, wfPair p ∧ e = mkStubEntry p.1 p.2

instance (sa : Bytes) : Decidable (wfSa sa) := by
  unfold wfSa; exact inferInstance

instance (m : Option Bytes) : Decidable (wfMask m) :=
  match m with
  | none => .isTrue trivial
  | some mm => (inferInstance : Decidable (wfSa mm))

instance (p : Bytes × Option Bytes) : Decidable (wfPair p) := by
  unfold wfPair; exact inferInstance

theorem storedMask_none : storedMask none = [] := rfl

theorem storedMask_some (mm : Bytes) : storedMask (some mm) = storeBytes mm := rfl

theorem length_storeBytes (sa : Bytes) : (storeBytes sa).length = saLen sa := by
  simp [storeBytes, length_takeBytes]

theorem RadixStubEntry.eq_of_fields (a b : RadixStubEntry)
    (h1 : a.dst = b.dst) (h2 : a.mask = b.mask) : a = b := by
  cases a; cases b; simp_all

theorem maskMatch_mkStubEntry (d2 : Bytes) (m m2 : Option Bytes)
    (hm : wfMask m) (hm2 : wfMask m2) :
    (maskMatch (mkStubEntry d2 m2) m = true) ↔ storedMask m = storedMask m2 := by
  have hmaskeq : (mkStubEntry d2 m2).mask = storedMask m2 := mkStubEntry_mask d2 m2
  cases m with
  | none =>
      cases m2 with
      | none => simp [maskMatch, entryMaskLen, hmaskeq, storedMask_none, byteAt]
      | some mm2 =>
          have h2 : 1 ≤ saLen mm2 := hm2.1
          have hb : entryMaskLen (mkStubEntry d2 (some mm2)) = saLen mm2 := by
            rw [entryMaskLen, hmaskeq, storedMask_some]
            exact saLen_storeBytes mm2 h2
          simp only [maskMatch, decide_eq_true_eq, hb, storedMask_none, storedMask_some]
          constructor
          · intro h0; omega
          · intro hS
            have hLen := congrArg List.length hS
            simp [length_storeBytes] at hLen
            omega
  | some mm =>
      have h1 : 1 ≤ saLen mm := hm.1
      cases m2 with
      | none =>
          have hb : entryMaskLen (mkStubEntry d2 none) = 0 := by
            rw [entryMaskLen, hmaskeq, storedMask_none]
            rfl
          simp only [maskMatch, hb, Nat.lt_irrefl, if_false, storedMask_none, storedMask_some]
          constructor
          · intro h0; exact absurd h0 (by simp)
          · intro hS
            exfalso
            have hLen := congrArg List.length hS
            simp [length_storeBytes] at hLen
            omega
      | some mm2 =>
          have h2 : 1 ≤ saLen mm2 := hm2.1
          have hb : entryMaskLen (mkStubEntry d2 (some mm2)) = saLen mm2 := by
            rw [entryMaskLen, hmaskeq, storedMask_some]
            exact saLen_storeBytes mm2 h2
          simp only [maskMatch, hb, storedMask_some]
          rw [if_pos (by omega : 0 < saLen mm2), hmaskeq, storedMask_some]
          exact memcmpEq_storeBytes mm2 mm h2 h1

theorem dstMatch_mkStubEntry (d d2 : Bytes) (m2 : Option Bytes)
    (h : 1 ≤ saLen d) (h2 : 1 ≤ saLen d2) :
    (dstMatch (mkStubEntry d2 m2) d = true) ↔ storeBytes d = storeBytes d2 := by
  rw [dstMatch, mkStubEntry_dst]
  exact memcmpEq_storeBytes d2 d h2 h

theorem mkStubEntry_eq_iff (d d2 : Bytes) (m m2 : Option Bytes) :
    mkStubEntry d m = mkStubEntry d2 m2 ↔
      (storeBytes d = storeBytes d2 ∧ storedMask m = storedMask m2) := by
  constructor
  · intro hq
    refine ⟨?_, ?_⟩
    · rw [← mkStubEntry_dst d m, ← mkStubEntry_dst d2 m2, hq]
    · rw [← mkStubEntry_mask d m, ← mkStubEntry_mask d2 m2, hq]
  · intro hq
    refine RadixStubEntry.eq_of_fields _ _ ?_ ?_
    · rw [mkStubEntry_dst, mkStubEntry_dst]; exact hq.1
    · rw [mkStubEntry_mask, mkStubEntry_mask]; exact hq.2

/-- Under well-formedness, the delete/lookup match test recognizes exactly
the stored form of the argument pair. -/
theorem exactMatch_mkStubEntry (d d2 : Bytes) (m m2 : Option Bytes)
    (h : wfPair (d, m)) (h2 : wfPair (d2, m2)) :
    (exactMatch (mkStubEntry d2 m2) d m = true) ↔ mkStubEntry d m = mkStubEntry d2 m2 := by
  rw [exactMatch, Bool.and_eq_true,
    dstMatch_mkStubEntry d d2 m2 h.1.1 h2.1.1,
    maskMatch_mkStubEntry d2 m m2 h.2 h2.2,
    mkStubEntry_eq_iff]

theorem exactMatch_of_wfTable (rh : RadixStubHead) (ht : wfTable rh) (d : Bytes)
    (m : Option Bytes) (h : wfPair (d, m)) :
    ∀ e ∈ rh.entries, (exactMatch e d m = true ↔ e = mkStubEntry d m) := by
  intro e he
  obtain ⟨p, hp, rfl⟩ := ht e he
  rw [exactMatch_mkStubEntry d p.1 m p.2 h ⟨hp.1, hp.2⟩]
  exact eq_comm

theorem removeFirst_eq_none (p : RadixStubEntry → Bool) (l : List RadixStubEntry)
    (h : ∀ e ∈ l, p e = false) : removeFirst p l = (none, l) := by
  induction l with
  | nil => rfl
  | cons e rest ih =>
      have he := h e (by simp)
      have ih2 := ih (fun x hx => h x (by simp [hx]))
      simp [removeFirst, he, ih2]

theorem removeFirst_eq_erase (p : RadixStubEntry → Bool) (x : RadixStubEntry) :
    ∀ l : List RadixStubEntry, (∀ e ∈ l, (p e = true ↔ e = x)) → x ∈ l →
    removeFirst p l = (some x, l.erase x)
  | [], _, hx => absurd hx (by simp)
  | e :: rest, hpred, hx => by
      by_cases he : e = x
      · subst he
        have hpe : p e = true := (hpred e (by simp)).mpr rfl
        simp [removeFirst, hpe]
      · have hpe : p e = false := by
          rw [Bool.eq_false_iff]
          intro hc
          exact he ((hpred e (by simp)).mp hc)
        have hxr : x ∈ rest := by
          rcases List.mem_cons.mp hx with h1 | h1
          · exact absurd h1.symm he
          · exact h1
        have ih := removeFirst_eq_erase p x rest
          (fun a ha => hpred a (by simp [ha])) hxr
        have herase : (e :: rest).erase x = e :: rest.erase x := by
          rw [List.erase_cons_tail]
          simpa using he
        simp [removeFirst, hpe, ih, herase]

theorem removeFirst_some (p : RadixStubEntry → Bool) :
    ∀ (l : List RadixStubEntry) (e : RadixStubEntry) (rest : List RadixStubEntry),
    removeFirst p l = (some e, rest) →
    p e = true ∧ ∃ l1 l2, l = l1 ++ e :: l2 ∧ rest = l1 ++ l2 ∧ (∀ x ∈ l1, p x = false)
  | [], e, rest => by intro h; simp [removeFirst] at h
  | a :: l, e, rest => by
      intro h
      by_cases hpa : p a = true
      · simp only [removeFirst, hpa, if_true] at h
        have h1 : some a = some e := congrArg Prod.fst h
        have h2 : l = rest := congrArg Prod.snd h
        obtain rfl : a = e := by simpa using h1
        exact ⟨hpa, [], l, by simp, by simp [h2], by simp⟩
      · rw [Bool.not_eq_true] at hpa
        simp only [removeFirst, hpa, Bool.false_eq_true, if_false] at h
        have h1 : (removeFirst p l).1 = some e := congrArg Prod.fst h
        have h2 : a :: (removeFirst p l).2 = rest := congrArg Prod.snd h
        rcases hrr : removeFirst p l with ⟨r1, r2⟩
        rw [hrr] at h1 h2
        simp only at h1 h2
        subst h1
        obtain ⟨hpe, l1, l2, hl, hrest, hl1⟩ := removeFirst_some p l e r2 hrr
        refine ⟨hpe, a :: l1, l2, by simp [hl], by simp [← h2, hrest], ?_⟩
        intro x hx
        rcases List.mem_cons.mp hx with h1 | h1
        · subst h1; exact hpa
        · exact hl1 x h1

theorem removeFirst_none_eq (p : RadixStubEntry → Bool) :
    ∀ (l r : List RadixStubEntry), removeFirst p l = (none, r) →
    r = l ∧ ∀ x ∈ l, p x = false
  | [], r => by
      intro h
      have h2 : ([] : List RadixStubEntry) = r := congrArg Prod.snd h
      exact ⟨h2.symm, by simp⟩
  | a :: l, r => by
      intro h
      by_cases hpa : p a = true
      · simp only [removeFirst, hpa, if_true] at h
        have h1 : some a = none := congrArg Prod.fst h
        simp at h1
      · rw [Bool.not_eq_true] at hpa
        simp only [removeFirst, hpa, Bool.false_eq_true, if_false] at h
        have h1 : (removeFirst p l).1 = none := congrArg Prod.fst h
        have h2 : a :: (removeFirst p l).2 = r := congrArg Prod.snd h
        rcases hrr : removeFirst p l with ⟨r1, r2⟩
        rw [hrr] at h1 h2
        simp only at h1 h2
        subst h1
        obtain ⟨hrl, hfa⟩ := removeFirst_none_eq p l r2 hrr
        subst hrl
        refine ⟨h2.symm, ?_⟩
        intro x hx
        rcases List.mem_cons.mp hx with h1 | h1
        · subst h1; exact hpa
        · exact hfa x h1

theorem find?_eq_of_pred_iff (p : RadixStubEntry → Bool) (x : RadixStubEntry) :
    ∀ l : List RadixStubEntry, (∀ e ∈ l, (p e = true ↔ e = x)) →
    l.find? p = if x ∈ l then some x else none
  | [], _ => by simp
  | e :: rest, hpred => by
      by_cases he : e = x
      · subst he
        have hpe : p e = true := (hpred e (by simp)).mpr rfl
        simp [List.find?, hpe]
      · have hpe : p e = false := by
          rw [Bool.eq_false_iff]
          intro hc
          exact he ((hpred e (by simp)).mp hc)
        have ih := find?_eq_of_pred_iff p x rest (fun a ha => hpred a (by simp [ha]))
        simp only [List.find?, hpe]
        rw [ih]
        by_cases hxr : x ∈ rest
        · simp [hxr]
        · simp [hxr, he, Ne.symm he]

/-!
Part 4: characterization of delete/lookup and the round-trip induction.
-/

theorem stub_deladdr_found (rh : RadixStubHead) (d : Bytes) (m : Option Bytes)
    (h : wfPair (d, m)) (ht : wfTable rh) (hmem : mkStubEntry d m ∈ rh.entries) :
    stub_deladdr (some d) m rh =
      (some (mkStubEntry d m),
        { entries := rh.entries.erase (mkStubEntry d m), count := rh.count - 1 }) := by
  have hrm := removeFirst_eq_erase (fun e => exactMatch e d m) (mkStubEntry d m)
    rh.entries (exactMatch_of_wfTable rh ht d m h) hmem
  simp [stub_deladdr, hrm]

theorem stub_deladdr_missing (rh : RadixStubHead) (d : Bytes) (m : Option Bytes)
    (h : wfPair (d, m)) (ht : wfTable rh) (hmem : mkStubEntry d m ∉ rh.entries) :
    stub_deladdr (some d) m rh = (none, rh) := by
  have hall : ∀ e ∈ rh.entries, exactMatch e d m = false := by
    intro e he
    rw [Bool.eq_false_iff]
    intro hc
    exact hmem (((exactMatch_of_wfTable rh ht d m h) e he).mp hc ▸ he)
  have hrm := removeFirst_eq_none (fun e => exactMatch e d m) rh.entries hall
  simp [stub_deladdr, hrm]

theorem stub_lookup_eq (rh : RadixStubHead) (d : Bytes) (m : Option Bytes)
    (h : wfPair (d, m)) (ht : wfTable rh) :
    stub_lookup (some d) m rh =
      if mkStubEntry d m ∈ rh.entries then some (mkStubEntry d m) else none := by
  simp only [stub_lookup]
  exact find?_eq_of_pred_iff (fun e => exactMatch e d m) (mkStubEntry d m)
    rh.entries (exactMatch_of_wfTable rh ht d m h)

/-- Shorthand for the stored entry of an argument pair. -/
def mkStubEntryP (p : Bytes × Option Bytes) : RadixStubEntry := mkStubEntry p.1 p.2

/-- One insert step of a run of inserts. -/
def addStep (rh : RadixStubHead) (p : Bytes × Option Bytes) : RadixStubHead :=
  (stub_addaddr (some p.1) p.2 rh).2

/-- `rn_inithead` followed by a run of inserts. -/
def runAdds (ps : List (Bytes × Option Bytes)) : RadixStubHead :=
  ps.foldl addStep rn_inithead

/-- One delete step of a run of deletes. -/
def delStep (rh : RadixStubHead) (p : Bytes × Option Bytes) : RadixStubHead :=
  (stub_deladdr (some p.1) p.2 rh).2

/-- A run of deletes. -/
def runDels (rh : RadixStubHead) (qs : List (Bytes × Option Bytes)) : RadixStubHead :=
  qs.foldl delStep rh

/-- Every delete in the sequence returns a non-NULL node. -/
def DeletesSucceed : RadixStubHead → List (Bytes × Option Bytes) → Prop
  | _, [] => True
  | rh, p :: rest =>
      (stub_deladdr (some p.1) p.2 rh).1.isSome = true ∧ DeletesSucceed (delStep rh p) rest

theorem foldl_addStep_entries (ps : List (Bytes × Option Bytes)) :
    ∀ rh : RadixStubHead,
    (ps.foldl addStep rh).entries = (ps.map mkStubEntryP).reverse ++ rh.entries := by
  induction ps with
  | nil => intro rh; simp
  | cons p ps ih =>
      intro rh
      simp only [List.foldl_cons, List.map_cons, List.reverse_cons]
      rw [ih]
      simp [addStep, stub_addaddr, mkStubEntryP]

theorem runAdds_entries (ps : List (Bytes × Option Bytes)) :
    (runAdds ps).entries = (ps.map mkStubEntryP).reverse := by
  rw [runAdds, foldl_addStep_entries]
  simp [rn_inithead]

theorem wfTable_runAdds (ps : List (Bytes × Option Bytes)) (hwf : ∀ p ∈ ps, wfPair p) :
    wfTable (runAdds ps) := by
  intro e he
  rw [runAdds_entries, List.mem_reverse, List.mem_map] at he
  obtain ⟨p, hp, rfl⟩ := he
  exact ⟨p, hwf p hp, rfl⟩

/-- The `count` field tracks the length of the entry list. -/
def countInv (rh : RadixStubHead) : Prop := rh.count = (rh.entries.length : Int)

theorem countInv_addStep (rh : RadixStubHead) (p : Bytes × Option Bytes)
    (h : countInv rh) : countInv (addStep rh p) := by
  simp only [countInv, addStep, stub_addaddr] at h ⊢
  simp [h]

theorem countInv_delStep (rh : RadixStubHead) (p : Bytes × Option Bytes)
    (h : countInv rh) : countInv (delStep rh p) := by
  simp only [countInv, delStep, stub_deladdr] at h ⊢
  rcases hrr : removeFirst (fun e => exactMatch e p.1 p.2) rh.entries with ⟨r1, r2⟩
  cases r1 with
  | none => simpa [hrr] using h
  | some e =>
      obtain ⟨-, l1, l2, hl, hrest, -⟩ := removeFirst_some _ rh.entries e r2 hrr
      subst hrest
      rw [hl] at h
      simp at h ⊢
      omega

theorem countInv_foldl_addStep (ps : List (Bytes × Option Bytes)) :
    ∀ rh, countInv rh → countInv (ps.foldl addStep rh) := by
  induction ps with
  | nil => intro rh h; exact h
  | cons p ps ih => intro rh h; exact ih _ (countInv_addStep rh p h)

theorem countInv_runDels (qs : List (Bytes × Option Bytes)) :
    ∀ rh, countInv rh → countInv (runDels rh qs) := by
  induction qs with
  | nil => intro rh h; exact h
  | cons q qs ih => intro rh h; exact ih _ (countInv_delStep rh q h)

theorem countInv_runAdds (ps : List (Bytes × Option Bytes)) : countInv (runAdds ps) :=
  countInv_foldl_addStep ps rn_inithead (by simp [countInv, rn_inithead])

/-- Main induction for round-trip deletion: as long as the multiset of
pairs still to delete is contained in the table, every delete succeeds,
well-formedness is preserved, and entry counts decrease exactly by the
deleted multiplicities. -/
theorem runDels_spec (qs : List (Bytes × Option Bytes)) :
    ∀ rh : RadixStubHead, wfTable rh → (∀ p ∈ qs, wfPair p) →
    (∀ e, (qs.map mkStubEntryP).count e ≤ rh.entries.count e) →
    DeletesSucceed rh qs
    ∧ wfTable (runDels rh qs)
    ∧ (∀ e, (runDels rh qs).entries.count e + (qs.map mkStubEntryP).count e
        = rh.entries.count e) := by
  induction qs with
  | nil =>
      intro rh ht _ _
      exact ⟨trivial, ht, by simp [runDels]⟩
  | cons p rest ih =>
      intro rh ht hwf hcnt
      have hp : wfPair p := hwf p (by simp)
      have hp2 : wfPair (p.1, p.2) := hp
      have hmem : mkStubEntryP p ∈ rh.entries := by
        have h1 := hcnt (mkStubEntryP p)
        simp [List.count_cons] at h1
        exact List.count_pos_iff.mp (by omega)
      have hdel := stub_deladdr_found rh p.1 p.2 hp2 ht hmem
      have hstep : delStep rh p =
          { entries := rh.entries.erase (mkStubEntryP p), count := rh.count - 1 } := by
        simp [delStep, hdel, mkStubEntryP]
      have ht2 : wfTable (delStep rh p) := by
        intro e he
        rw [hstep] at he
        exact ht e (List.mem_of_mem_erase he)
      have hcnt2 : ∀ e, (rest.map mkStubEntryP).count e ≤ (delStep rh p).entries.count e := by
        intro e
        rw [hstep]
        simp only []
        rw [List.count_erase]
        have h1 := hcnt e
        simp [List.count_cons] at h1
        by_cases he : e = mkStubEntryP p
        · subst he; simp at h1 ⊢; omega
        · have : (mkStubEntryP p == e) = false := by
            simp [Ne.symm he]
          simp [this, he] at h1 ⊢
          omega
      obtain ⟨hds, hwt, hcn⟩ := ih (delStep rh p) ht2 (fun q hq => hwf q (by simp [hq])) hcnt2
      refine ⟨⟨by simp [hdel, mkStubEntryP], hds⟩, ?_, ?_⟩
      · simpa [runDels] using hwt
      · intro e
        have h2 := hcn e
        have hD : (delStep rh p).entries = rh.entries.erase (mkStubEntryP p) := by
          rw [hstep]
        rw [hD, List.count_erase] at h2
        have h3 : (runDels rh (p :: rest)) = runDels (delStep rh p) rest := by
          simp [runDels]
        rw [h3, List.map_cons, List.count_cons]
        have h1 := hcnt e
        simp [List.count_cons] at h1
        by_cases he : e = mkStubEntryP p
        · subst he
          simp at h1 h2 ⊢
          omega
        · have hbe : (mkStubEntryP p == e) = false := by simp [Ne.symm he]
          have hbe2 : (e == mkStubEntryP p) = false := by simp [he]
          simp [hbe, hbe2] at h1 h2 ⊢
          omega

/-!
Part 5: walk characterization.
-/

/-- The visit sequence the walk loop produces: entries in list order up to
and including the first entry on which the visitor returns non-zero. -/
def visitUpTo (v : RadixStubEntry → Int) : List RadixStubEntry → List RadixStubEntry
  | [] => []
  | e :: rest => if v e = 0 then e :: visitUpTo v rest else [e]

theorem walkLoop_stop {σ : Type} (f : RadixStubEntry → σ → Int × σ)
    (l : List RadixStubEntry) (w : σ) (res : Int) (h : ¬ res = 0) :
    walkLoop f l w res = (res, w) := by
  cases l <;> simp [walkLoop, h]

theorem walkLoop_log (v : RadixStubEntry → Int) :
    ∀ (l : List RadixStubEntry) (s : List RadixStubEntry),
    (walkLoop (fun e t => (v e, t ++ [e])) l s 0).2 = s ++ visitUpTo v l
  | [], s => by simp [walkLoop, visitUpTo]
  | e :: rest, s => by
      by_cases hv : v e = 0
      · simp only [walkLoop, if_pos rfl, visitUpTo, hv, if_true]
        rw [walkLoop_log v rest (s ++ [e])]
        simp
      · have hstop := walkLoop_stop (fun e t => (v e, t ++ [e])) rest (s ++ [e]) (v e) hv
        simp [walkLoop, visitUpTo, hv, hstop]

theorem walkVisited_eq (v : RadixStubEntry → Int) (rh : RadixStubHead) :
    walkVisited v rh = visitUpTo v rh.entries := by
  simpa [walkVisited, stub_walktree] using walkLoop_log v rh.entries []

theorem visitUpTo_all_zero : ∀ l : List RadixStubEntry, visitUpTo (fun _ => 0) l = l
  | [] => rfl
  | e :: rest => by simp [visitUpTo, visitUpTo_all_zero rest]

theorem walkVisited_zero (rh : RadixStubHead) :
    walkVisited (fun _ => 0) rh = rh.entries := by
  rw [walkVisited_eq, visitUpTo_all_zero]

theorem visitUpTo_append (v : RadixStubEntry → Int) :
    ∀ (q1 : List RadixStubEntry) (e : RadixStubEntry) (q2 : List RadixStubEntry),
    (∀ x ∈ q1, v x = 0) → ¬ v e = 0 →
    visitUpTo v (q1 ++ e :: q2) = q1 ++ [e]
  | [], e, q2, _, hv => by simp [visitUpTo, hv]
  | x :: q1, e, q2, hq, hv => by
      have hx : v x = 0 := hq x (by simp)
      have ih := visitUpTo_append v q1 e q2 (fun a ha => hq a (by simp [ha])) hv
      show visitUpTo v (x :: (q1 ++ e :: q2)) = x :: (q1 ++ [e])
      simp only [visitUpTo]
      rw [if_pos hx, ih]

/-!
Part 6: the claims about the stub radix table.
-/

/-- Concrete sockaddr_in test vectors (sa_len 8, family AF_INET, address
in bytes 4..7). -/
def saddrA : Bytes := [8, 2, 0, 0, 10, 0, 0, 1]

def saddrB : Bytes := [8, 2, 0, 0, 10, 0, 0, 2]

/-- A /24 netmask sockaddr with family byte set to AF_INET. -/
def mask24 : Bytes := [8, 2, 0, 0, 255, 255, 255, 0]

/-- A degenerate non-NULL sockaddr whose `sa_len` byte is 0. -/
def maskZeroLen : Bytes := [0]

/-- A query address (99.99.99.99) far from every stored prefix. -/
def queryFar : Bytes := [8, 2, 0, 0, 99, 99, 99, 99]

/-- A query address (10.0.0.77) inside 10.0.0.0/24. -/
def queryNear : Bytes := [8, 2, 0, 0, 10, 0, 0, 77]

/-- C1 counterexample.  One route is successfully inserted with a
non-NULL mask whose `sa_len` is 0 (nothing is copied, the stored mask
stays zeroed); deleting the very pair that was inserted fails, because
`stub_deladdr` treats a non-NULL lookup mask against a zero-length stored
mask as a mismatch.  So a round of N = 1 successful inserts cannot be
deleted, refuting the claim as stated. -/
theorem stub_roundtrip_counterexample :
    ((stub_addaddr (some saddrA) (some maskZeroLen) rn_inithead).1.isSome = true)
    ∧ (stub_deladdr (some saddrA) (some maskZeroLen)
        (stub_addaddr (some saddrA) (some maskZeroLen) rn_inithead).2).1 = none
    ∧ (stub_deladdr (some saddrA) (some maskZeroLen)
        (stub_addaddr (some saddrA) (some maskZeroLen) rn_inithead).2).2.entries ≠ [] := by
  decide

/-- C1 (amended): round-trip delete-all holds for well-formed sockaddrs.
If every inserted key and every inserted non-NULL mask has a non-zero
`sa_len` that lies within its buffer (and within `sockaddr_storage`),
then after inserting the pairs `ps` and deleting the same pairs in any
order `qs` (any permutation of `ps`): every delete returns a node, after
any prefix `q1` of the deletions a walk visits exactly the stored entries
of the not-yet-deleted multiset `ps - q1` (stated by entry counts), and
after all deletions the table is empty with `count = 0`. -/
theorem stub_roundtrip_delete_all (ps qs : List (Bytes × Option Bytes))
    (hperm : qs.Perm ps) (hwf : ∀ p ∈ ps, wfPair p) :
    DeletesSucceed (runAdds ps) qs
    ∧ (∀ q1 q2, qs = q1 ++ q2 → ∀ e : RadixStubEntry,
        (walkVisited (fun _ => 0) (runDels (runAdds ps) q1)).count e
          + (q1.map mkStubEntryP).count e
          = (ps.map mkStubEntryP).count e)
    ∧ (runDels (runAdds ps) qs).entries = []
    ∧ (runDels (runAdds ps) qs).count = 0 := by
  have hwfq : ∀ p ∈ qs, wfPair p := fun p hp => hwf p (hperm.subset hp)
  have hcntAdds : ∀ e : RadixStubEntry,
      (runAdds ps).entries.count e = (ps.map mkStubEntryP).count e := by
    intro e
    rw [runAdds_entries]
    simp
  have hqp : ∀ e : RadixStubEntry,
      (qs.map mkStubEntryP).count e = (ps.map mkStubEntryP).count e :=
    fun e => (hperm.map mkStubEntryP).count_eq e
  have ht := wfTable_runAdds ps hwf
  have hmain := runDels_spec qs (runAdds ps) ht hwfq
    (fun e => by rw [hqp e, hcntAdds e])
  refine ⟨hmain.1, ?_, ?_, ?_⟩
  · intro q1 q2 hsplit e
    have hwfq1 : ∀ p ∈ q1, wfPair p := fun p hp => hwfq p (by simp [hsplit, hp])
    have hcnt1 : ∀ x : RadixStubEntry,
        (q1.map mkStubEntryP).count x ≤ (runAdds ps).entries.count x := by
      intro x
      rw [hcntAdds x, ← hqp x, hsplit]
      simp
    obtain ⟨-, -, hc⟩ := runDels_spec q1 (runAdds ps) ht hwfq1 hcnt1
    rw [walkVisited_zero]
    rw [hc e, hcntAdds e]
  · have hzero : ∀ e : RadixStubEntry, (runDels (runAdds ps) qs).entries.count e = 0 := by
      intro e
      have hc := hmain.2.2 e
      rw [hqp e, hcntAdds e] at hc
      omega
    rw [List.eq_nil_iff_forall_not_mem]
    intro e he
    have := hzero e
    rw [List.count_eq_zero] at this
    exact this he
  · have hci : countInv (runDels (runAdds ps) qs) :=
      countInv_runDels qs (runAdds ps) (countInv_runAdds ps)
    rw [countInv] at hci
    have hzero : ∀ e : RadixStubEntry, (runDels (runAdds ps) qs).entries.count e = 0 := by
      intro e
      have hc := hmain.2.2 e
      rw [hqp e, hcntAdds e] at hc
      omega
    have hnil : (runDels (runAdds ps) qs).entries = [] := by
      rw [List.eq_nil_iff_forall_not_mem]
      intro e he
      have := hzero e
      rw [List.count_eq_zero] at this
      exact this he
    rw [hnil] at hci
    simpa using hci

/-- C1 witness: a concrete two-route insert/delete round trip (deletion in
the reverse order of insertion) in which both deletes succeed and the
table ends empty. -/
theorem stub_roundtrip_delete_all_witness :
    DeletesSucceed (runAdds [(saddrA, some mask24), (saddrB, none)])
      [(saddrB, none), (saddrA, some mask24)]
    ∧ (runDels (runAdds [(saddrA, some mask24), (saddrB, none)])
        [(saddrB, none), (saddrA, some mask24)]).entries = [] := by
  have h := stub_roundtrip_delete_all
    [(saddrA, some mask24), (saddrB, none)]
    [(saddrB, none), (saddrA, some mask24)]
    (by decide) (by decide)
  exact ⟨h.1, h.2.2.1⟩

/-- C2 counterexample.  `stub_addaddr` performs no duplicate check: after
10.0.0.1/24 is inserted, inserting the identical (key, mask) pair again
returns a node (not NULL / AlreadyExists) and the table ends up holding
two entries with the identical stored (key, mask). -/
theorem stub_addaddr_duplicate_counterexample :
    ((stub_addaddr (some saddrA) (some mask24)
        (stub_addaddr (some saddrA) (some mask24) rn_inithead).2).1.isSome = true)
    ∧ ((stub_addaddr (some saddrA) (some mask24)
        (stub_addaddr (some saddrA) (some mask24) rn_inithead).2).2.entries.count
          (mkStubEntry saddrA (some mask24)) = 2)
    ∧ ((stub_addaddr (some saddrA) (some mask24)
        (stub_addaddr (some saddrA) (some mask24) rn_inithead).2).2
        ≠ (stub_addaddr (some saddrA) (some mask24) rn_inithead).2) := by
  decide

/-- C2 (amended): `stub_addaddr` never reports AlreadyExists.  With a
non-NULL key it always succeeds, returning the freshly stored entry and
prepending it to the list, even when an entry with the identical stored
(key, mask) pair is already present — in which case the table afterwards
holds at least two such entries.  It returns NULL only for a NULL key. -/
theorem stub_addaddr_no_duplicate_check :
    (∀ (rh : RadixStubHead) (d : Bytes) (m : Option Bytes),
      (stub_addaddr (some d) m rh).1 = some (mkStubEntry d m)
      ∧ (stub_addaddr (some d) m rh).2.entries = mkStubEntry d m :: rh.entries
      ∧ (stub_addaddr (some d) m rh).2.count = rh.count + 1
      ∧ (mkStubEntry d m ∈ rh.entries →
          2 ≤ (stub_addaddr (some d) m rh).2.entries.count (mkStubEntry d m)))
    ∧ (∀ (rh : RadixStubHead) (m : Option Bytes), stub_addaddr none m rh = (none, rh)) := by
  constructor
  · intro rh d m
    refine ⟨rfl, rfl, rfl, ?_⟩
    intro hmem
    show 2 ≤ (mkStubEntry d m :: rh.entries).count (mkStubEntry d m)
    rw [List.count_cons_self]
    have : 0 < rh.entries.count (mkStubEntry d m) := List.count_pos_iff.mpr hmem
    omega
  · intro rh m
    rfl

/-- C2 witness: duplicate insert of 10.0.0.1/24 leaves two copies. -/
theorem stub_addaddr_no_duplicate_check_witness :
    2 ≤ (stub_addaddr (some saddrA) (some mask24)
        (stub_addaddr (some saddrA) (some mask24) rn_inithead).2).2.entries.count
          (mkStubEntry saddrA (some mask24)) :=
  (stub_addaddr_no_duplicate_check.1
    (stub_addaddr (some saddrA) (some mask24) rn_inithead).2
    saddrA (some mask24)).2.2.2 (by decide)

/-- C4 counterexample.  The table holds the single entry 10.0.0.1 with
mask 255.255.255.0; looking it up with a non-NULL mask argument whose
`sa_len` is 0 succeeds (the `memcmp` compares 0 bytes) and the matching
delete unlinks that entry, even though the argument mask `[0]` is not
byte-equal to any stored mask.  Exact lookup and delete therefore succeed
on arguments whose mask is not byte-equal to the stored one. -/
theorem stub_lookup_exact_counterexample :
    (stub_lookup (some saddrA) (some maskZeroLen)
        (stub_addaddr (some saddrA) (some mask24) rn_inithead).2
      = some (mkStubEntry saddrA (some mask24)))
    ∧ (mkStubEntry saddrA (some mask24)).mask ≠ storeBytes maskZeroLen
    ∧ ((stub_deladdr (some saddrA) (some maskZeroLen)
        (stub_addaddr (some saddrA) (some mask24) rn_inithead).2).1.isSome = true) := by
  decide

/-- C4 (amended): for well-formed arguments (non-zero in-bounds `sa_len`
on the key and on a present mask) against a table whose entries were all
stored from well-formed pairs, exact lookup succeeds if and only if the
table holds an entry whose stored key and mask bytes equal the stored
form of the arguments, in which case it returns exactly that entry;
delete returns NULL if and only if no such entry exists, and on success
unlinks exactly the first such entry (the rest of the list unchanged),
decrementing `count`. -/
theorem stub_exact_lookup_delete (rh : RadixStubHead) (d : Bytes) (m : Option Bytes)
    (h : wfPair (d, m)) (ht : wfTable rh) :
    ((stub_lookup (some d) m rh).isSome ↔ mkStubEntry d m ∈ rh.entries)
    ∧ (∀ e, stub_lookup (some d) m rh = some e → e = mkStubEntry d m)
    ∧ ((stub_deladdr (some d) m rh).1 = none ↔ mkStubEntry d m ∉ rh.entries)
    ∧ (mkStubEntry d m ∈ rh.entries →
        stub_deladdr (some d) m rh =
          (some (mkStubEntry d m),
            { entries := rh.entries.erase (mkStubEntry d m), count := rh.count - 1 })) := by
  have hl := stub_lookup_eq rh d m h ht
  refine ⟨?_, ?_, ?_, fun hmem => stub_deladdr_found rh d m h ht hmem⟩
  · rw [hl]
    by_cases hmem : mkStubEntry d m ∈ rh.entries <;> simp [hmem]
  · intro e he
    rw [hl] at he
    by_cases hmem : mkStubEntry d m ∈ rh.entries
    · rw [if_pos hmem] at he
      exact (Option.some_injective _ he).symm
    · rw [if_neg hmem] at he
      exact absurd he (by simp)
  · constructor
    · intro hnone hmem
      have := stub_deladdr_found rh d m h ht hmem
      rw [this] at hnone
      simp at hnone
    · intro hmem
      rw [stub_deladdr_missing rh d m h ht hmem]

/-- C4 witness: with 10.0.0.1/24 stored, exact lookup of the identical
pair succeeds and deleting a not-stored pair (10.0.0.2/24) fails. -/
theorem stub_exact_lookup_delete_witness :
    ((stub_lookup (some saddrA) (some mask24)
        (stub_addaddr (some saddrA) (some mask24) rn_inithead).2).isSome = true)
    ∧ ((stub_deladdr (some saddrB) (some mask24)
        (stub_addaddr (some saddrA) (some mask24) rn_inithead).2).1 = none) := by
  have hwt : wfTable (stub_addaddr (some saddrA) (some mask24) rn_inithead).2 := by
    intro e he
    refine ⟨(saddrA, some mask24), by decide, ?_⟩
    have he2 : e = mkStubEntry saddrA (some mask24) := by
      simpa [stub_addaddr, rn_inithead] using he
    exact he2
  have h1 := stub_exact_lookup_delete
    (stub_addaddr (some saddrA) (some mask24) rn_inithead).2
    saddrA (some mask24) (by decide) hwt
  have h2 := stub_exact_lookup_delete
    (stub_addaddr (some saddrA) (some mask24) rn_inithead).2
    saddrB (some mask24) (by decide) hwt
  constructor
  · rw [h1.1]
    decide
  · rw [h2.2.2.1]
    decide

/-- C5 counterexample.  Insert 10.0.0.1 then 10.0.0.2 (ascending keys);
the walk visits 10.0.0.2 first and 10.0.0.1 second — strictly decreasing
keys — so the visit order is not ascending (non-decreasing) key order. -/
theorem stub_walk_order_counterexample :
    ((walkVisited (fun _ => 0)
        (stub_addaddr (some saddrB) none
          (stub_addaddr (some saddrA) none rn_inithead).2).2).map
        (fun e => beWord e.dst) = [167772162, 167772161])
    ∧ 167772161 < 167772162 := by
  decide

theorem countInv_applyStubOp (rh : RadixStubHead) (o : StubOp)
    (hc : countInv rh) : countInv (applyStubOp rh o) := by
  cases o with
  | add v m =>
      cases v with
      | none => simpa [applyStubOp, stub_addaddr] using hc
      | some d => exact countInv_addStep rh (d, m) hc
  | del v m =>
      cases v with
      | none => simpa [applyStubOp, stub_deladdr] using hc
      | some d => exact countInv_delStep rh (d, m) hc

theorem countInv_foldl_ops (ops : List StubOp) :
    ∀ rh, countInv rh → countInv (ops.foldl applyStubOp rh) := by
  induction ops with
  | nil => intro rh h; exact h
  | cons o ops ih => intro rh h; exact ih _ (countInv_applyStubOp rh o h)

theorem countInv_runStubOps (ops : List StubOp) : countInv (runStubOps ops) :=
  countInv_foldl_ops ops rn_inithead (by simp [countInv, rn_inithead])

/-- C5 (amended): `stub_walktree` invokes the visitor exactly once per
live entry — but in list order, which is reverse insertion order (most
recently inserted first), not ascending key order.  With an always-zero
visitor the visit sequence is exactly the entry list, whose length equals
the `count` field on every reachable table; a non-zero visitor return
terminates the walk immediately after that entry. -/
theorem stub_walk_reverse_insertion :
    (∀ (v : RadixStubEntry → Int) (rh : RadixStubHead),
      walkVisited v rh = visitUpTo v rh.entries)
    ∧ (∀ rh : RadixStubHead, walkVisited (fun _ => 0) rh = rh.entries)
    ∧ (∀ ops : List StubOp,
        (walkVisited (fun _ => 0) (runStubOps ops)).length = (runStubOps ops).entries.length
        ∧ (runStubOps ops).count = ((runStubOps ops).entries.length : Int))
    ∧ (∀ (v : RadixStubEntry → Int) (rh : RadixStubHead)
        (q1 : List RadixStubEntry) (e : RadixStubEntry) (q2 : List RadixStubEntry),
        rh.entries = q1 ++ e :: q2 → (∀ x ∈ q1, v x = 0) → ¬ v e = 0 →
        walkVisited v rh = q1 ++ [e]) := by
  refine ⟨walkVisited_eq, walkVisited_zero, ?_, ?_⟩
  · intro ops
    refine ⟨by rw [walkVisited_zero], countInv_runStubOps ops⟩
  · intro v rh q1 e q2 hsplit hq hv
    rw [walkVisited_eq, hsplit]
    exact visitUpTo_append v q1 e q2 hq hv

/-- C5 witness: on the two-entry table of the counterexample, the walk
visits both live entries (count 2) and an abort-on-first visitor stops
after one entry. -/
theorem stub_walk_reverse_insertion_witness :
    ((runStubOps [StubOp.add (some saddrA) none, StubOp.add (some saddrB) none]).count
      = ((runStubOps [StubOp.add (some saddrA) none,
          StubOp.add (some saddrB) none]).entries.length : Int))
    ∧ (walkVisited (fun _ => (1 : Int))
        (stub_addaddr (some saddrB) none
          (stub_addaddr (some saddrA) none rn_inithead).2).2
        = [mkStubEntry saddrB none]) := by
  refine ⟨(stub_walk_reverse_insertion.2.2.1
    [StubOp.add (some saddrA) none, StubOp.add (some saddrB) none]).2, ?_⟩
  exact stub_walk_reverse_insertion.2.2.2 (fun _ => (1 : Int))
    (stub_addaddr (some saddrB) none
      (stub_addaddr (some saddrA) none rn_inithead).2).2
    [] (mkStubEntry saddrB none) [mkStubEntry saddrA none]
    (by decide) (by simp) (by decide)

/-- C10: entry-count bookkeeping.  On every table reachable from
`rn_inithead` by add/delete operations the `count` field equals the entry
list length; a successful add prepends exactly one entry and increments
`count`; a NULL-key add changes nothing; a successful delete unlinks
exactly the first matching entry (everything before it did not match, the
rest of the list is untouched) and decrements `count`; a failed delete
changes nothing. -/
theorem stub_count_bookkeeping :
    (∀ ops : List StubOp,
      (runStubOps ops).count = ((runStubOps ops).entries.length : Int))
    ∧ (∀ (rh : RadixStubHead) (d : Bytes) (m : Option Bytes),
        (stub_addaddr (some d) m rh).1 = some (mkStubEntry d m)
        ∧ (stub_addaddr (some d) m rh).2.entries = mkStubEntry d m :: rh.entries
        ∧ (stub_addaddr (some d) m rh).2.count = rh.count + 1)
    ∧ (∀ (rh : RadixStubHead) (m : Option Bytes), stub_addaddr none m rh = (none, rh))
    ∧ (∀ (rh : RadixStubHead) (d : Bytes) (m : Option Bytes) (e : RadixStubEntry)
        (rh2 : RadixStubHead),
        stub_deladdr (some d) m rh = (some e, rh2) →
        rh2.count = rh.count - 1
        ∧ exactMatch e d m = true
        ∧ ∃ l1 l2, rh.entries = l1 ++ e :: l2 ∧ rh2.entries = l1 ++ l2
            ∧ (∀ x ∈ l1, exactMatch x d m = false))
    ∧ (∀ (rh : RadixStubHead) (v m : Option Bytes) (rh2 : RadixStubHead),
        stub_deladdr v m rh = (none, rh2) → rh2 = rh) := by
  refine ⟨countInv_runStubOps, fun rh d m => ⟨rfl, rfl, rfl⟩, fun rh m => rfl, ?_, ?_⟩
  · intro rh d m e rh2 h
    simp only [stub_deladdr] at h
    rcases hrr : removeFirst (fun x => exactMatch x d m) rh.entries with ⟨r1, r2⟩
    rw [hrr] at h
    cases r1 with
    | none =>
        have h1 : (none : Option RadixStubEntry) = some e := congrArg Prod.fst h
        simp at h1
    | some e0 =>
        have h1 : some e0 = some e := congrArg Prod.fst h
        have he0 : e0 = e := by simpa using h1
        rw [he0] at hrr
        have h2 : ({ entries := r2, count := rh.count - 1 } : RadixStubHead) = rh2 :=
          congrArg Prod.snd h
        obtain ⟨hpe, l1, l2, hl, hrest, hl1⟩ :=
          removeFirst_some (fun x => exactMatch x d m) rh.entries e r2 hrr
        subst hrest
        refine ⟨by rw [← h2], hpe, l1, l2, hl, by rw [← h2], hl1⟩
  · intro rh v m rh2 h
    cases v with
    | none =>
        have h2 : rh = rh2 := congrArg Prod.snd h
        exact h2.symm
    | some d =>
        simp only [stub_deladdr] at h
        rcases hrr : removeFirst (fun x => exactMatch x d m) rh.entries with ⟨r1, r2⟩
        rw [hrr] at h
        cases r1 with
        | none =>
            have h2 : rh = rh2 := congrArg Prod.snd h
            exact h2.symm
        | some e0 =>
            have h1 : some e0 = (none : Option RadixStubEntry) := congrArg Prod.fst h
            simp at h1

/-- C10 witness: the invariant on a concrete reachable table, and the
delete decomposition at a concrete successful delete. -/
theorem stub_count_bookkeeping_witness :
    ((runStubOps [StubOp.add (some saddrA) (some mask24),
        StubOp.del (some saddrA) (some mask24)]).count
      = ((runStubOps [StubOp.add (some saddrA) (some mask24),
          StubOp.del (some saddrA) (some mask24)]).entries.length : Int))
    ∧ (({ entries := [], count := 0 } : RadixStubHead).count
        = (stub_addaddr (some saddrA) (some mask24) rn_inithead).2.count - 1) := by
  refine ⟨stub_count_bookkeeping.1 _, ?_⟩
  exact (stub_count_bookkeeping.2.2.2.1
    (stub_addaddr (some saddrA) (some mask24) rn_inithead).2
    saddrA (some mask24) (mkStubEntry saddrA (some mask24))
    { entries := [], count := 0 } (by decide)).1

/-- `ntohl` value of an entry's stored mask. -/
def maskIp (e : RadixStubEntry) : Nat := beWord e.mask

/-- Whether a stored entry contains the query under its own stored mask
(the `addr_matches` call of `stub_matchaddr`, whose mask pointer is the
embedded storage and hence never NULL). -/
def matchesAddr (q : Bytes) (e : RadixStubEntry) : Bool :=
  addr_matches q e.dst (some e.mask)

/-- Invariant of the `stub_matchaddr` scan: over entries whose stored
mask has family AF_INET, the scan returns a containing entry of maximal
numeric mask value (or the carried-in best), and returns `none` only if
nothing matched and no best was carried in. -/
theorem matchScan_spec (q : Bytes) :
    ∀ (l : List RadixStubEntry) (best : Option RadixStubEntry) (bm : Nat),
    (∀ e ∈ l, saFamily e.mask = AF_INET) →
    (best = none → bm = 0) →
    (∀ b, best = some b → matchesAddr q b = true ∧ maskIp b = bm) →
    (matchScan q l best bm = none → best = none ∧ ∀ x ∈ l, matchesAddr q x = false)
    ∧ (∀ e2, matchScan q l best bm = some e2 →
        ((best = some e2) ∨ (e2 ∈ l ∧ matchesAddr q e2 = true))
        ∧ bm ≤ maskIp e2
        ∧ (∀ x ∈ l, matchesAddr q x = true → maskIp x ≤ maskIp e2))
  | [], best, bm => by
      intro _ hbest0 hbestS
      constructor
      · intro hnone
        exact ⟨hnone, by simp⟩
      · intro e2 hres
        refine ⟨Or.inl hres, ?_, by simp⟩
        have := hbestS e2 hres
        omega
  | e :: rest, best, bm => by
      intro hmask hbest0 hbestS
      have hmaskr : ∀ x ∈ rest, saFamily x.mask = AF_INET :=
        fun x hx => hmask x (by simp [hx])
      by_cases hm : matchesAddr q e = true
      · have hm2 : addr_matches q e.dst (some e.mask) = true := hm
        have hf : saFamily e.mask = AF_INET := hmask e (by simp)
        by_cases hle : bm ≤ beWord e.mask
        · have ih := matchScan_spec q rest (some e) (beWord e.mask) hmaskr
            (fun hc => by simp at hc)
            (fun b hb => by
              have hbe : b = e := by simpa using hb.symm
              subst hbe
              exact ⟨hm, rfl⟩)
          have hunfold : matchScan q (e :: rest) best bm
              = matchScan q rest (some e) (beWord e.mask) := by
            simp [matchScan, hm2, hf, hle]
          rw [hunfold]
          constructor
          · intro hnone
            exact absurd (ih.1 hnone).1 (by simp)
          · intro e2 hres
            obtain ⟨hd, hbm, hall⟩ := ih.2 e2 hres
            refine ⟨?_, by omega, ?_⟩
            · rcases hd with hd | hd
              · have hee : e = e2 := by simpa using hd
                subst hee
                exact Or.inr ⟨by simp, hm⟩
              · exact Or.inr ⟨by simp [hd.1], hd.2⟩
            · intro x hx hmx
              rcases List.mem_cons.mp hx with h1 | h1
              · subst h1
                have hme : maskIp x = beWord x.mask := rfl
                omega
              · exact hall x h1 hmx
        · have ih := matchScan_spec q rest best bm hmaskr hbest0 hbestS
          have hunfold : matchScan q (e :: rest) best bm = matchScan q rest best bm := by
            simp [matchScan, hm2, hf, hle]
          rw [hunfold]
          constructor
          · intro hnone
            have hb := (ih.1 hnone).1
            have := hbest0 hb
            omega
          · intro e2 hres
            obtain ⟨hd, hbm, hall⟩ := ih.2 e2 hres
            refine ⟨?_, hbm, ?_⟩
            · rcases hd with hd | hd
              · exact Or.inl hd
              · exact Or.inr ⟨by simp [hd.1], hd.2⟩
            · intro x hx hmx
              rcases List.mem_cons.mp hx with h1 | h1
              · subst h1
                have hme : maskIp x = beWord x.mask := rfl
                omega
              · exact hall x h1 hmx
      · have hm2 : addr_matches q e.dst (some e.mask) = false := by
          rw [Bool.eq_false_iff]
          intro hc
          exact hm hc
        have ih := matchScan_spec q rest best bm hmaskr hbest0 hbestS
        have hunfold : matchScan q (e :: rest) best bm = matchScan q rest best bm := by
          simp [matchScan, hm2]
        rw [hunfold]
        constructor
        · intro hnone
          obtain ⟨hb, hall⟩ := ih.1 hnone
          refine ⟨hb, ?_⟩
          intro x hx
          rcases List.mem_cons.mp hx with h1 | h1
          · subst h1
            simpa [matchesAddr] using hm2
          · exact hall x h1
        · intro e2 hres
          obtain ⟨hd, hbm, hall⟩ := ih.2 e2 hres
          refine ⟨?_, hbm, ?_⟩
          · rcases hd with hd | hd
            · exact Or.inl hd
            · exact Or.inr ⟨by simp [hd.1], hd.2⟩
          · intro x hx hmx
            rcases List.mem_cons.mp hx with h1 | h1
            · subst h1
              exact absurd hmx (by simp [matchesAddr, hm2])
            · exact hall x h1 hmx

/-- C3 counterexample.  10.0.0.1 is stored with an absent (NULL) mask: the
stored mask bytes stay zeroed, so in `stub_matchaddr` the entry's mask
value is 0 and the entry contains *every* AF_INET query.  Querying
99.99.99.99 — a different address — returns the entry, refuting
"a host route that matches only the query equal to its full-length
address". -/
theorem stub_matchaddr_hostroute_counterexample :
    (stub_matchaddr (some queryFar) (stub_addaddr (some saddrA) none rn_inithead).2
      = some (mkStubEntry saddrA none))
    ∧ beWord queryFar ≠ beWord (mkStubEntry saddrA none).dst := by
  decide

/-- C3 (amended): over tables whose stored masks all carry family
AF_INET, `stub_matchaddr` returns a stored entry that contains the query
and whose mask is numerically maximal — maximal `ntohl` value of the
mask, which coincides with maximal prefix length only for contiguous
masks — among all containing entries, and misses exactly when no entry
contains the query.  An entry inserted with an absent (NULL) mask is not
a host route: its zeroed mask makes it contain every query of its
family (a default route). -/
theorem stub_matchaddr_best_numeric_mask :
    (∀ (q : Bytes) (rh : RadixStubHead),
      (∀ e ∈ rh.entries, saFamily e.mask = AF_INET) →
      ((stub_matchaddr (some q) rh = none → ∀ x ∈ rh.entries, matchesAddr q x = false)
       ∧ (∀ e, stub_matchaddr (some q) rh = some e →
            e ∈ rh.entries ∧ matchesAddr q e = true
            ∧ ∀ x ∈ rh.entries, matchesAddr q x = true → maskIp x ≤ maskIp e)
       ∧ ((∃ x ∈ rh.entries, matchesAddr q x = true) →
            (stub_matchaddr (some q) rh).isSome = true)))
    ∧ (∀ q d : Bytes, saFamily q = saFamily (storeBytes d) → saFamily q = AF_INET →
        matchesAddr q (mkStubEntry d none) = true) := by
  constructor
  · intro q rh hmask
    have hspec := matchScan_spec q rh.entries none 0 hmask (fun _ => rfl)
      (fun b hb => by simp at hb)
    have hout : stub_matchaddr (some q) rh = matchScan q rh.entries none 0 := rfl
    refine ⟨?_, ?_, ?_⟩
    · intro hnone
      rw [hout] at hnone
      exact (hspec.1 hnone).2
    · intro e hres
      rw [hout] at hres
      obtain ⟨hd, -, hall⟩ := hspec.2 e hres
      rcases hd with hd | hd
      · simp at hd
      · exact ⟨hd.1, hd.2, hall⟩
    · intro hex
      cases hres : stub_matchaddr (some q) rh with
      | none =>
          obtain ⟨x, hx, hmx⟩ := hex
          rw [hout] at hres
          have := (hspec.1 hres).2 x hx
          rw [this] at hmx
          exact absurd hmx (by simp)
      | some e => rfl
  · intro q d hfam hq
    have hmaskz : (mkStubEntry d none).mask = [] := mkStubEntry_mask d none
    have hbz : beWord ([] : Bytes) = 0 := rfl
    rw [matchesAddr, mkStubEntry_dst, hmaskz, addr_matches]
    rw [if_neg (by rw [hfam]; simp)]
    rw [if_pos hq]
    simp [hbz, Nat.and_zero]

/-- C3 witness: with 10.0.0.1/24 stored (AF_INET mask), the lookup of
10.0.0.77 (inside the /24) hits. -/
theorem stub_matchaddr_best_numeric_mask_witness :
    (stub_matchaddr (some queryNear)
      (stub_addaddr (some saddrA) (some mask24) rn_inithead).2).isSome = true := by
  refine (stub_matchaddr_best_numeric_mask.1 queryNear
    (stub_addaddr (some saddrA) (some mask24) rn_inithead).2 (by decide)).2.2 ?_
  exact ⟨mkStubEntry saddrA (some mask24), by decide, by decide⟩

/-!
Part 7: the claims about the XNU epoch reclaimer and rmlock.
-/

theorem check_gp_not_waiting (e : XnuEpoch) (h : e.gp.gpState ≠ GpState.waiting) :
    xnu_epoch_check_grace_period e = (false, e) := by
  unfold xnu_epoch_check_grace_period
  rw [if_pos h]

theorem check_gp_preserves (e : XnuEpoch) :
    (xnu_epoch_check_grace_period e).2.gp.gpState = e.gp.gpState
    ∧ (xnu_epoch_check_grace_period e).2.gp.gpNumber = e.gp.gpNumber
    ∧ (xnu_epoch_check_grace_period e).2.callbackQueue = e.callbackQueue := by
  unfold xnu_epoch_check_grace_period
  by_cases h : e.gp.gpState ≠ GpState.waiting
  · rw [if_pos h]
    exact ⟨rfl, rfl, rfl⟩
  · rw [if_neg h]
    exact ⟨rfl, rfl, rfl⟩

theorem complete_gp_fields (e : XnuEpoch) :
    (xnu_epoch_complete_grace_period e).gp.gpState = GpState.completed
    ∧ (xnu_epoch_complete_grace_period e).gp.gpNumber = e.gp.gpNumber :=
  ⟨rfl, rfl⟩

theorem start_gp_fields (e : XnuEpoch) :
    ((xnu_epoch_start_grace_period e).gp.gpState = GpState.completed
      ∨ (xnu_epoch_start_grace_period e).gp.gpState = GpState.waiting)
    ∧ (xnu_epoch_start_grace_period e).gp.gpNumber = e.gp.gpNumber + 1 := by
  refine ⟨?_, rfl⟩
  unfold xnu_epoch_start_grace_period
  by_cases h : (buildGpMasks 0 e.cpuStates).2.2 = 0
  · exact Or.inl (by simp [h])
  · exact Or.inr (by simp [h])

/-- C6: one step of the grace-period worker only moves the state forward
along the cycle IDLE → STARTED → WAITING → COMPLETED → IDLE (possibly
standing still, possibly covering several edges of the cycle when no CPU
has active readers, wrapping only at COMPLETED → IDLE); a new grace
period is started from IDLE — equivalently, `gp_number` changes — only
when the pending-callback queue is non-empty. -/
theorem xnu_gp_state_machine_cycle (e : XnuEpoch) :
    GpCycleStep e.gp.gpState (xnu_epoch_grace_period_worker e).gp.gpState
    ∧ ((e.gp.gpState = GpState.idle
        ∧ (xnu_epoch_grace_period_worker e).gp.gpState ≠ GpState.idle)
        → e.callbackQueue ≠ [])
    ∧ ((xnu_epoch_grace_period_worker e).gp.gpNumber ≠ e.gp.gpNumber
        → e.gp.gpState = GpState.idle ∧ e.callbackQueue ≠ []) := by
  cases hs : e.gp.gpState with
  | idle =>
      by_cases hq : e.callbackQueue ≠ []
      · have hw : xnu_epoch_grace_period_worker e = xnu_epoch_start_grace_period e := by
          unfold xnu_epoch_grace_period_worker
          rw [hs]
          simp [hq]
        obtain ⟨hst, -⟩ := start_gp_fields e
        refine ⟨?_, fun _ => hq, fun _ => ⟨rfl, hq⟩⟩
        rw [hw]
        rcases hst with h1 | h1 <;> rw [h1]
        · exact Or.inr (Or.inl (by simp [gpIdx]))
        · exact Or.inr (Or.inl (by simp [gpIdx]))
      · have hw : xnu_epoch_grace_period_worker e = e := by
          unfold xnu_epoch_grace_period_worker
          rw [hs]
          simp [hq]
        refine ⟨?_, fun hc => (hc.2 (by rw [hw, hs])).elim, fun hc => (hc (by rw [hw])).elim⟩
        rw [hw, hs]
        exact Or.inl rfl
  | started =>
      have hchk := check_gp_not_waiting e (by rw [hs]; simp)
      have hw : xnu_epoch_grace_period_worker e = e := by
        unfold xnu_epoch_grace_period_worker
        rw [hs]
        simp [hchk]
      refine ⟨?_, fun hc => absurd hc.1 (by simp), fun hc => (hc (by rw [hw])).elim⟩
      rw [hw, hs]
      exact Or.inl rfl
  | waiting =>
      have hpres := check_gp_preserves e
      by_cases hdone : (xnu_epoch_check_grace_period e).1 = true
      · have hw : xnu_epoch_grace_period_worker e
            = xnu_epoch_complete_grace_period (xnu_epoch_check_grace_period e).2 := by
          unfold xnu_epoch_grace_period_worker
          rw [hs]
          simp [hdone]
        refine ⟨?_, fun hc => absurd hc.1 (by simp), ?_⟩
        · rw [hw, (complete_gp_fields _).1]
          exact Or.inr (Or.inl (by simp [gpIdx]))
        · intro hc
          rw [hw, (complete_gp_fields _).2, hpres.2.1] at hc
          exact absurd rfl hc
      · have hw : xnu_epoch_grace_period_worker e = (xnu_epoch_check_grace_period e).2 := by
          unfold xnu_epoch_grace_period_worker
          rw [hs]
          simp [hdone]
        refine ⟨?_, fun hc => absurd hc.1 (by simp), ?_⟩
        · rw [hw, hpres.1, hs]
          exact Or.inl rfl
        · intro hc
          rw [hw, hpres.2.1] at hc
          exact absurd rfl hc
  | completed =>
      have hw : (xnu_epoch_grace_period_worker e).gp.gpState = GpState.idle
          ∧ (xnu_epoch_grace_period_worker e).gp.gpNumber = e.gp.gpNumber := by
        unfold xnu_epoch_grace_period_worker
        rw [hs]
        exact ⟨rfl, rfl⟩
      refine ⟨?_, fun hc => absurd hc.1 (by simp), fun hc => (hc hw.2).elim⟩
      rw [hw.1]
      exact Or.inr (Or.inr ⟨rfl, rfl⟩)

/-- A concrete epoch: IDLE state, one quiescent CPU, one queued
callback. -/
def epochIdleQueued : XnuEpoch :=
  { gp := ⟨0, .idle, 0, 0⟩
    cpuStates := [⟨0, 0, 0, false⟩]
    callbackQueue := [⟨1, false, 8⟩]
    gracePeriodsCompleted := 0
    memory := ⟨1, 10, 0, 0, 0⟩
    emergencyReclaims := 0 }

/-- C6 witness: on a concrete IDLE epoch with a pending callback, the
worker step follows the cycle, and the started-only-when-queued
implication fires (the step lands in COMPLETED since no CPU is active). -/
theorem xnu_gp_state_machine_cycle_witness :
    GpCycleStep epochIdleQueued.gp.gpState
      (xnu_epoch_grace_period_worker epochIdleQueued).gp.gpState
    ∧ epochIdleQueued.callbackQueue ≠ [] := by
  have hred : (xnu_epoch_grace_period_worker epochIdleQueued).gp.gpState
      = GpState.completed := rfl
  refine ⟨(xnu_gp_state_machine_cycle epochIdleQueued).1, ?_⟩
  refine (xnu_gp_state_machine_cycle epochIdleQueued).2.1 ⟨rfl, ?_⟩
  rw [hred]
  simp

theorem emergencyAccount_count (l : List EpochCallbackEntry) :
    ∀ m : XnuEpochMemory, m.callbackCount < 2 ^ 32 → l.length ≤ m.callbackCount →
    (l.foldl emergencyAccount m).callbackCount = m.callbackCount - l.length := by
  induction l with
  | nil => intro m _ _; simp
  | cons c l ih =>
      intro m hlt hle
      have hle' : l.length + 1 ≤ m.callbackCount := by simpa using hle
      have hpos : m.callbackCount ≠ 0 :=
        Nat.pos_iff_ne_zero.mp (Nat.lt_of_lt_of_le (Nat.succ_pos l.length) hle')
      have hdec : (emergencyAccount m c).callbackCount = m.callbackCount - 1 := by
        show dec32 m.callbackCount = m.callbackCount - 1
        unfold dec32 UINT32_MAX
        have h1 : m.callbackCount + (2 ^ 32 - 1) = m.callbackCount - 1 + 2 ^ 32 := by
          rcases Nat.exists_eq_add_of_le (Nat.one_le_iff_ne_zero.mpr hpos) with ⟨k, hk⟩
          rw [hk]
          simp [Nat.add_assoc, Nat.add_comm, Nat.add_left_comm]
        rw [h1, Nat.add_mod_right,
          Nat.mod_eq_of_lt (Nat.lt_of_le_of_lt (Nat.sub_le _ _) hlt)]
      rw [List.foldl_cons,
        ih (emergencyAccount m c)
          (by rw [hdec]; exact Nat.lt_of_le_of_lt (Nat.sub_le _ _) hlt)
          (by rw [hdec]; exact Nat.le_sub_of_add_le hle'),
        hdec, Nat.sub_sub, List.length_cons, Nat.add_comm 1 l.length]

/-- C7: whenever the pending-callback count exceeds the critical
high-water mark (`callback_limit * 9 / 10`), the memory-pressure check
runs the emergency reclaim, which synchronously executes (returns, in
queue order) exactly the URGENT-flagged callbacks and removes them from
the queue, leaving every non-urgent callback in the queue in order and
decrementing the callback count by the number executed; when the count
does not exceed the mark, nothing is executed and the queue is
untouched. -/
theorem xnu_memory_pressure_emergency (e : XnuEpoch) :
    (highWaterMark e.memory < e.memory.callbackCount →
      ((xnu_epoch_check_memory_pressure e).2 = e.callbackQueue.filter (fun c => c.urgent)
       ∧ (xnu_epoch_check_memory_pressure e).1.callbackQueue
           = e.callbackQueue.filter (fun c => !c.urgent)
       ∧ (e.memory.callbackCount < 2 ^ 32 →
           (e.callbackQueue.filter (fun c => c.urgent)).length ≤ e.memory.callbackCount →
           (xnu_epoch_check_memory_pressure e).1.memory.callbackCount
             = e.memory.callbackCount
               - (e.callbackQueue.filter (fun c => c.urgent)).length)))
    ∧ (¬ highWaterMark e.memory < e.memory.callbackCount →
        ((xnu_epoch_check_memory_pressure e).2 = []
         ∧ (xnu_epoch_check_memory_pressure e).1.callbackQueue = e.callbackQueue
         ∧ (xnu_epoch_check_memory_pressure e).1.memory.callbackCount
             = e.memory.callbackCount)) := by
  constructor
  · intro hhw
    have hred : xnu_epoch_check_memory_pressure e
        = xnu_epoch_emergency_reclaim
            { e with memory := { e.memory with memoryPressure := 3 } } := by
      unfold xnu_epoch_check_memory_pressure
      rw [if_pos hhw, if_pos hhw]
    rw [hred]
    refine ⟨rfl, rfl, ?_⟩
    intro h1 h2
    exact emergencyAccount_count _ _ h1 h2
  · intro hhw
    unfold xnu_epoch_check_memory_pressure
    rw [if_neg hhw, if_neg hhw]
    exact ⟨rfl, rfl, rfl⟩

/-- A concrete epoch over the high-water mark: limit 0 (mark 0), two
queued callbacks of which the first is urgent. -/
def epochPressured : XnuEpoch :=
  { gp := ⟨0, .idle, 0, 0⟩
    cpuStates := [⟨0, 0, 0, false⟩]
    callbackQueue := [⟨1, true, 8⟩, ⟨2, false, 8⟩]
    gracePeriodsCompleted := 0
    memory := ⟨2, 0, 0, 0, 0⟩
    emergencyReclaims := 0 }

/-- C7 witness: on the concrete pressured epoch, the check executes
exactly the urgent callback and keeps the non-urgent one. -/
theorem xnu_memory_pressure_emergency_witness :
    (xnu_epoch_check_memory_pressure epochPressured).2
      = epochPressured.callbackQueue.filter (fun c => c.urgent)
    ∧ (xnu_epoch_check_memory_pressure epochPressured).1.callbackQueue
      = epochPressured.callbackQueue.filter (fun c => !c.urgent)
    ∧ (xnu_epoch_check_memory_pressure epochPressured).1.memory.callbackCount
      = epochPressured.memory.callbackCount
        - (epochPressured.callbackQueue.filter (fun c => c.urgent)).length := by
  have h := (xnu_memory_pressure_emergency epochPressured).1 (by decide)
  exact ⟨h.1, h.2.1, h.2.2 (by decide) (by decide)⟩

theorem dequeue_remove_readEpoch (rm : XnuRmlock) (w : XnuWriterWaiter) :
    (xnu_rm_dequeue_remove rm w).readEpoch = rm.readEpoch := by
  unfold xnu_rm_dequeue_remove
  by_cases h : rm.writerWaitQueue ≠ [] <;> simp [h]

theorem dequeue_writer_readEpoch (rm : XnuRmlock) (w : XnuWriterWaiter) :
    (xnu_rm_dequeue_writer rm w).readEpoch = rm.readEpoch := by
  unfold xnu_rm_dequeue_writer
  by_cases h : (xnu_rm_dequeue_remove rm w).waitingWriters = 0
  · rw [if_pos h]
    exact dequeue_remove_readEpoch rm w
  · rw [if_neg h]
    exact dequeue_remove_readEpoch rm w

/-- A state with the writer-waiting indication set (`writer_priority`
true, fast path disabled) but no queued writer: exactly the situation the
claim says `write_unlock` cleans up. -/
def rmFlagStuck : XnuRmlock :=
  { currentWriter := some 7
    rwExclusive := true
    writerWaitQueue := []
    waitingWriters := 0
    writerPriority := true
    fastPathEnabled := 0
    currentReaders := 0
    readEpoch := ⟨0, 5⟩
    statWriteLocks := 1 }

/-- C8 counterexample.  With no writer queued, `xnu_rm_wunlock` wakes
nobody and leaves `writer_priority` set and `fast_path_enabled` cleared:
the flag restoration the claim attributes to write_unlock is simply not
in that function (it lives in `xnu_rm_dequeue_writer`). -/
theorem xnu_wunlock_flag_counterexample :
    (xnu_rm_wunlock rmFlagStuck).2 = none
    ∧ (xnu_rm_wunlock rmFlagStuck).1.writerPriority = true
    ∧ (xnu_rm_wunlock rmFlagStuck).1.fastPathEnabled = 0 := by
  decide

/-- C8 (amended): the write-lock tail acquires the exclusive lock and
then invokes the epoch reclaimer's grace-period wait (advancing the epoch
number) before recording the writer — and every successful
`xnu_rm_wlock_advanced` ends in that tail; `xnu_rm_wunlock` clears
`current_writer`, releases the exclusive lock and wakes the head of the
writer queue if one is queued, but never touches `writer_priority` or
`fast_path_enabled` — those are restored (fast path re-enabled) by
`xnu_rm_dequeue_writer` when the last waiting writer dequeues itself. -/
theorem xnu_write_lock_protocol :
    (∀ (rm : XnuRmlock) (tid : Nat),
      xnu_rm_wlock_final rm tid = setCurrentWriter tid (applyEpochWait (acquireExclusive rm))
      ∧ (xnu_rm_wlock_final rm tid).rwExclusive = true
      ∧ (xnu_rm_wlock_final rm tid).readEpoch.epochNumber = rm.readEpoch.epochNumber + 1
      ∧ (xnu_rm_wlock_final rm tid).currentWriter = some tid)
    ∧ (∀ (rm : XnuRmlock) (fairMode : Bool) (tid prio : Nat) (rm2 : XnuRmlock),
        xnu_rm_wlock_advanced rm fairMode tid prio = some rm2 →
        rm2.rwExclusive = true ∧ rm2.currentWriter = some tid
        ∧ rm2.readEpoch.epochNumber = rm.readEpoch.epochNumber + 1)
    ∧ (∀ rm : XnuRmlock,
        (xnu_rm_wunlock rm).1.currentWriter = none
        ∧ (xnu_rm_wunlock rm).1.rwExclusive = false
        ∧ (xnu_rm_wunlock rm).2 = rm.writerWaitQueue.head?.map XnuWriterWaiter.thread
        ∧ (xnu_rm_wunlock rm).1.writerPriority = rm.writerPriority
        ∧ (xnu_rm_wunlock rm).1.fastPathEnabled = rm.fastPathEnabled
        ∧ (xnu_rm_wunlock rm).1.writerWaitQueue = rm.writerWaitQueue)
    ∧ (∀ (rm : XnuRmlock) (w : XnuWriterWaiter),
        (xnu_rm_dequeue_writer rm w).waitingWriters = 0 →
        (xnu_rm_dequeue_writer rm w).writerPriority = false
        ∧ (xnu_rm_dequeue_writer rm w).fastPathEnabled = 1) := by
  refine ⟨fun rm tid => ⟨rfl, rfl, rfl, rfl⟩, ?_, ?_, ?_⟩
  · intro rm fairMode tid prio rm2 h
    unfold xnu_rm_wlock_advanced at h
    by_cases hc : fairMode = true ∨ 0 < rm.waitingWriters
    · rw [if_pos hc] at h
      by_cases hc2 : 1 < (xnu_rm_enqueue_writer rm ⟨tid, prio⟩).waitingWriters
          ∨ 0 < (xnu_rm_enqueue_writer rm ⟨tid, prio⟩).currentReaders
      · rw [if_pos hc2] at h
        exact absurd h (by simp)
      · rw [if_neg hc2] at h
        have h2 : rm2 = xnu_rm_wlock_final
            (xnu_rm_dequeue_writer (xnu_rm_enqueue_writer rm ⟨tid, prio⟩) ⟨tid, prio⟩) tid :=
          (Option.some_injective _ h).symm
        subst h2
        refine ⟨rfl, rfl, ?_⟩
        show (xnu_epoch_wait_preempt (xnu_rm_dequeue_writer
          (xnu_rm_enqueue_writer rm ⟨tid, prio⟩) ⟨tid, prio⟩).readEpoch).epochNumber
          = rm.readEpoch.epochNumber + 1
        rw [dequeue_writer_readEpoch]
        rfl
    · rw [if_neg hc] at h
      have h2 : rm2 = xnu_rm_wlock_final rm tid := (Option.some_injective _ h).symm
      subst h2
      exact ⟨rfl, rfl, rfl⟩
  · intro rm
    refine ⟨rfl, rfl, ?_, rfl, rfl, rfl⟩
    show xnu_rm_wakeup_writers { rm with currentWriter := none, rwExclusive := false }
      = rm.writerWaitQueue.head?.map XnuWriterWaiter.thread
    unfold xnu_rm_wakeup_writers
    cases rm.writerWaitQueue <;> rfl
  · intro rm w h
    unfold xnu_rm_dequeue_writer at h ⊢
    by_cases h0 : (xnu_rm_dequeue_remove rm w).waitingWriters = 0
    · rw [if_pos h0]
      exact ⟨rfl, rfl⟩
    · rw [if_neg h0] at h
      exact absurd h h0

/-- A quiescent lock: no writers waiting, no readers. -/
def rmQuiet : XnuRmlock :=
  { currentWriter := none
    rwExclusive := false
    writerWaitQueue := []
    waitingWriters := 0
    writerPriority := false
    fastPathEnabled := 1
    currentReaders := 0
    readEpoch := ⟨0, 3⟩
    statWriteLocks := 0 }

/-- A lock whose only queued writer is about to dequeue itself. -/
def rmLastWaiter : XnuRmlock :=
  { currentWriter := none
    rwExclusive := false
    writerWaitQueue := [⟨9, 0⟩]
    waitingWriters := 1
    writerPriority := true
    fastPathEnabled := 0
    currentReaders := 0
    readEpoch := ⟨0, 3⟩
    statWriteLocks := 0 }

/-- C8 witness: an uncontended `xnu_rm_wlock_advanced` acquires the lock,
advances the epoch and records the writer; the last waiter's dequeue
restores the fast path. -/
theorem xnu_write_lock_protocol_witness :
    ((xnu_rm_wlock_final rmQuiet 3).rwExclusive = true
      ∧ (xnu_rm_wlock_final rmQuiet 3).currentWriter = some 3
      ∧ (xnu_rm_wlock_final rmQuiet 3).readEpoch.epochNumber
          = rmQuiet.readEpoch.epochNumber + 1)
    ∧ ((xnu_rm_dequeue_writer rmLastWaiter ⟨9, 0⟩).writerPriority = false
      ∧ (xnu_rm_dequeue_writer rmLastWaiter ⟨9, 0⟩).fastPathEnabled = 1) := by
  have h1 := xnu_write_lock_protocol.2.1 rmQuiet false 3 0
    (xnu_rm_wlock_final rmQuiet 3) rfl
  have h2 := xnu_write_lock_protocol.2.2.2 rmLastWaiter ⟨9, 0⟩ (by decide)
  exact ⟨⟨h1.1, h1.2.1, h1.2.2⟩, h2⟩

/-- C9: the userland epoch shims are no-ops and `NET_EPOCH_CALL` runs its
callback synchronously at the call site: over any sequence of shim
invocations, the final state is just the in-order composition of the
scheduled callbacks applied immediately — no deferral queue exists. -/
theorem net_epoch_userland_noop :
    (∀ (σ : Type) (s : σ), NET_EPOCH_ENTER s = s ∧ NET_EPOCH_EXIT s = s
      ∧ NET_EPOCH_WAIT s = s)
    ∧ (∀ (σ : Type) (f : σ → σ) (s : σ), NET_EPOCH_CALL f s = f s)
    ∧ (∀ (σ : Type) (ops : List (NetEpochOp σ)) (s : σ),
        runNetEpochOps ops s = (scheduledCallbacks ops).foldl (fun t f => f t) s) := by
  refine ⟨fun σ s => ⟨rfl, rfl, rfl⟩, fun σ f s => rfl, ?_⟩
  intro σ ops
  induction ops with
  | nil => intro s; rfl
  | cons op ops ih =>
      intro s
      cases op <;> simp [runNetEpochOps, scheduledCallbacks, NET_EPOCH_ENTER,
        NET_EPOCH_EXIT, NET_EPOCH_WAIT, NET_EPOCH_CALL, ih]
